import Mathlib

/-!
Verification of the Integra status page core (health-check engine,
dependency graph, history ring buffer) against its specification.

The JavaScript sources `lib/health.js`, `lib/health-config.js`,
`lib/history.js` and `public/app.js` are shallowly embedded below:
JS objects used as string-keyed maps become association lists with
insertion-order semantics, JS numbers become `Int`/`Nat`/`ℚ` as
appropriate (ideal real arithmetic stands in for IEEE doubles), thrown
exceptions become `Except`, and wall-clock reads (`Date.now()`) become
explicit parameters.
-/

namespace Integra

/-- Model of a JavaScript object used as a string-keyed map: an
association list in key insertion order. -/
abbrev JsObj (α : Type) := List (String × α)

/-- JS property assignment `o[k] = v`: overwrite in place when the key
exists, otherwise append the new key at the end. -/
def objInsert (k : String) (v : α) : JsObj α → JsObj α
  | [] => [(k, v)]
  | (k₀, v₀) :: rest =>
    if k₀ = k then (k, v) :: rest else (k₀, v₀) :: objInsert k v rest

@[simp] theorem lookup_objInsert_self (k : String) (v : α) (m : JsObj α) :
    List.lookup k (objInsert k v m) = some v := by
  induction m with
  | nil => simp [objInsert]
  | cons p rest ih =>
    obtain ⟨k₀, v₀⟩ := p
    by_cases h : k₀ = k
    · simp [objInsert, h, List.lookup]
    · simp only [objInsert, if_neg h, List.lookup]
      have : (k == k₀) = false := by
        simp [beq_iff_eq]; exact fun hh => h hh.symm
      simp [this, ih]

theorem lookup_objInsert_ne (k j : String) (v : α) (m : JsObj α) (hne : j ≠ k) :
    List.lookup j (objInsert k v m) = List.lookup j m := by
  have hbeq : (j == k) = false := beq_eq_false_iff_ne.mpr hne
  induction m with
  | nil => simp [objInsert, List.lookup, hbeq]
  | cons p rest ih =>
    obtain ⟨k₀, v₀⟩ := p
    by_cases h : k₀ = k
    · subst h
      simp [objInsert, List.lookup, hbeq]
    · simp only [objInsert, if_neg h, List.lookup]
      cases hjk : (j == k₀) <;> simp [hjk, ih]

theorem lookup_objInsert_isSome (k j : String) (v : α) (m : JsObj α) :
    (List.lookup j (objInsert k v m)).isSome
      ↔ j = k ∨ (List.lookup j m).isSome := by
  by_cases h : j = k
  · subst h; simp
  · rw [lookup_objInsert_ne k j v m h]; simp [h]

/-!  ## lib/history.js  -/

/-- Compact per-endpoint entry stored in a snapshot:
`s` is the status code (1 = UP, 2 = DEGRADED, 0 = DOWN),
`ms` the response time. -/
structure EpEntry where
  s : Nat
  ms : Int
deriving DecidableEq

/-- One history snapshot: capture time `t` (ms since epoch) and the
per-endpoint map `ep`. -/
structure Snapshot where
  t : Int
  ep : JsObj EpEntry
deriving DecidableEq

/-- History store state: the ordered snapshot sequence. -/
structure History where
  snapshots : List Snapshot
deriving DecidableEq

/-- Ring-buffer capacity (`MAX_SNAPSHOTS = 120`). -/
def MAX_SNAPSHOTS : Nat := 120

/-- The slice of a Check Result that `recordSnapshot` reads:
id, status string, and the (possibly absent) response time. -/
structure RecResult where
  id : String
  status : String
  responseTimeMs : Option Int
deriving DecidableEq

/-- Status encoding from `recordSnapshot`:
`r.status === 'UP' ? 1 : r.status === 'DEGRADED' ? 2 : 0`. -/
def encodeStatus (st : String) : Nat :=
  if st = "UP" then 1 else if st = "DEGRADED" then 2 else 0

/-- JS `x || 0` on an optional number: missing or zero (the falsy
numbers in range here) become 0. -/
def jsNumOrZero : Option Int → Int
  | none => 0
  | some v => if v = 0 then 0 else v

/-- The `ep` object built by `recordSnapshot` from the cycle's results. -/
def buildEpMap (results : List RecResult) : JsObj EpEntry :=
  results.foldl
    (fun m r => objInsert r.id ⟨encodeStatus r.status, jsNumOrZero r.responseTimeMs⟩ m) []

/-- `recordSnapshot(history, results)`: push a snapshot
`{t: Date.now(), ep}` and keep only the last `MAX_SNAPSHOTS`
(`history.snapshots.slice(-MAX_SNAPSHOTS)`). `Date.now()` is the
explicit parameter `now`. -/
def recordSnapshot (history : History) (results : List RecResult) (now : Int) : History :=
  let pushed := history.snapshots ++ [⟨now, buildEpMap results⟩]
  ⟨if pushed.length > MAX_SNAPSHOTS then pushed.drop (pushed.length - MAX_SNAPSHOTS) else pushed⟩

theorem lookup_foldl_objInsert_isSome (results : List RecResult) (id : String)
    (f : RecResult → EpEntry) :
    ∀ m : JsObj EpEntry,
      (List.lookup id (results.foldl (fun m r => objInsert r.id (f r) m) m)).isSome
        ↔ id ∈ results.map (·.id) ∨ (List.lookup id m).isSome := by
  induction results with
  | nil => simp
  | cons r rest ih =>
    intro m
    simp only [List.foldl_cons, List.map_cons, List.mem_cons]
    rw [ih]
    rw [lookup_objInsert_isSome]
    tauto

theorem lookup_foldl_objInsert_of_not_mem (results : List RecResult) (id : String)
    (f : RecResult → EpEntry) (hid : id ∉ results.map (·.id)) :
    ∀ m : JsObj EpEntry,
      List.lookup id (results.foldl (fun m r => objInsert r.id (f r) m) m)
        = List.lookup id m := by
  induction results with
  | nil => simp
  | cons r rest ih =>
    intro m
    simp only [List.map_cons, List.mem_cons, not_or] at hid
    simp only [List.foldl_cons]
    rw [ih hid.2, lookup_objInsert_ne _ _ _ _ hid.1]

theorem lookup_foldl_objInsert_of_nodup (results : List RecResult)
    (f : RecResult → EpEntry) (hnodup : (results.map (·.id)).Nodup) :
    ∀ r ∈ results, ∀ m : JsObj EpEntry,
      List.lookup r.id (results.foldl (fun m r => objInsert r.id (f r) m) m)
        = some (f r) := by
  induction results with
  | nil => simp
  | cons r₀ rest ih =>
    intro r hr m
    simp only [List.map_cons, List.nodup_cons] at hnodup
    rcases List.mem_cons.mp hr with h | h
    · subst h
      simp only [List.foldl_cons]
      rw [lookup_foldl_objInsert_of_not_mem rest r.id f hnodup.1]
      exact lookup_objInsert_self _ _ _
    · exact ih hnodup.2 r h _

theorem recordSnapshot_snapshots_eq (h : History) (results : List RecResult) (now : Int) :
    (recordSnapshot h results now).snapshots
      = (h.snapshots ++ [(⟨now, buildEpMap results⟩ : Snapshot)]).drop
          (h.snapshots.length + 1 - MAX_SNAPSHOTS) := by
  simp only [recordSnapshot]
  by_cases hlen :
      (h.snapshots ++ [(⟨now, buildEpMap results⟩ : Snapshot)]).length > MAX_SNAPSHOTS
  · rw [if_pos hlen]
    congr 1
    simp
  · rw [if_neg hlen]
    simp only [List.length_append, List.length_cons, List.length_nil] at hlen
    have hz : h.snapshots.length + 1 - MAX_SNAPSHOTS = 0 := by omega
    rw [hz, List.drop_zero]

theorem recordSnapshot_length (h : History) (results : List RecResult) (now : Int) :
    (recordSnapshot h results now).snapshots.length
      = min (h.snapshots.length + 1) MAX_SNAPSHOTS := by
  rw [recordSnapshot_snapshots_eq, List.length_drop]
  simp only [List.length_append, List.length_cons, List.length_nil, MAX_SNAPSHOTS]
  omega

set_option maxRecDepth 8000 in
/-- Claim C3: `recordSnapshot` appends the new snapshot at the end of the
stored sequence and, whenever the length would exceed the capacity of
120, evicts from the front until exactly 120 snapshots remain; the
stored sequence never exceeds 120 snapshots, and appending 121 snapshots
to an empty history retains exactly 120, the earliest retained one being
the second-oldest appended. -/
theorem recordSnapshot_ring_buffer (h : History) (results : List RecResult) (now : Int) :
    ((recordSnapshot h results now).snapshots
        = (h.snapshots ++ [(⟨now, buildEpMap results⟩ : Snapshot)]).drop
            (h.snapshots.length + 1 - MAX_SNAPSHOTS)
      ∧ (recordSnapshot h results now).snapshots.length
          = min (h.snapshots.length + 1) MAX_SNAPSHOTS
      ∧ (recordSnapshot h results now).snapshots.length ≤ MAX_SNAPSHOTS)
    ∧ (((List.range (MAX_SNAPSHOTS + 1)).foldl
          (fun acc i => recordSnapshot acc [] (i : Int)) ⟨[]⟩).snapshots.length
            = MAX_SNAPSHOTS
        ∧ (((List.range (MAX_SNAPSHOTS + 1)).foldl
            (fun acc i => recordSnapshot acc [] (i : Int)) ⟨[]⟩).snapshots.map (·.t)).head?
              = some 1) := by
  refine ⟨⟨recordSnapshot_snapshots_eq h results now, recordSnapshot_length h results now, ?_⟩,
    by decide, by decide⟩
  rw [recordSnapshot_length]
  exact min_le_right _ _

/-- Claim C10: the snapshot built by `recordSnapshot` has exactly the
result ids as keys of its `ep` map; status `"UP"` is encoded as 1,
`"DEGRADED"` as 2, and every other status string as 0; a missing or
zero response time is recorded as 0. -/
theorem recordSnapshot_snapshot_encoding (h : History) (results : List RecResult) (now : Int)
    (hnodup : (results.map (·.id)).Nodup) :
    ∃ ep : JsObj EpEntry,
      (recordSnapshot h results now).snapshots.getLast? = some ⟨now, ep⟩
      ∧ (∀ id : String, (List.lookup id ep).isSome ↔ id ∈ results.map (·.id))
      ∧ ∀ r ∈ results, List.lookup r.id ep
          = some ⟨(if r.status = "UP" then 1 else if r.status = "DEGRADED" then 2 else 0),
                  (match r.responseTimeMs with
                   | none => 0
                   | some v => if v = 0 then 0 else v)⟩ := by
  refine ⟨buildEpMap results, ?_, ?_, ?_⟩
  · rw [recordSnapshot_snapshots_eq]
    have hle : h.snapshots.length + 1 - MAX_SNAPSHOTS ≤ h.snapshots.length := by
      simp only [MAX_SNAPSHOTS]; omega
    rw [List.drop_append_of_le_length hle]
    exact List.getLast?_concat _
  · intro id
    rw [buildEpMap, lookup_foldl_objInsert_isSome]
    simp
  · intro r hr
    have := lookup_foldl_objInsert_of_nodup results
      (fun r => ⟨encodeStatus r.status, jsNumOrZero r.responseTimeMs⟩) hnodup r hr []
    rw [buildEpMap, this]
    simp only [encodeStatus, jsNumOrZero]

/-- Witness for C10 at a concrete result list exercising all three
status encodings and the falsy response-time rule. -/
theorem recordSnapshot_snapshot_encoding_witness :
    (([⟨"a", "UP", some 5⟩, ⟨"b", "DOWN", none⟩,
       ⟨"c", "unexpected", some 0⟩] : List RecResult).map (·.id)).Nodup
    ∧ ∃ ep : JsObj EpEntry,
        (recordSnapshot ⟨[]⟩ [⟨"a", "UP", some 5⟩, ⟨"b", "DOWN", none⟩,
          ⟨"c", "unexpected", some 0⟩] 7).snapshots.getLast? = some ⟨7, ep⟩
        ∧ (∀ id : String, (List.lookup id ep).isSome
            ↔ id ∈ ([⟨"a", "UP", some 5⟩, ⟨"b", "DOWN", none⟩,
                      ⟨"c", "unexpected", some 0⟩] : List RecResult).map (·.id))
        ∧ ∀ r ∈ ([⟨"a", "UP", some 5⟩, ⟨"b", "DOWN", none⟩,
                   ⟨"c", "unexpected", some 0⟩] : List RecResult),
            List.lookup r.id ep
              = some ⟨(if r.status = "UP" then 1 else if r.status = "DEGRADED" then 2 else 0),
                      (match r.responseTimeMs with
                       | none => 0
                       | some v => if v = 0 then 0 else v)⟩ :=
  ⟨by decide, recordSnapshot_snapshot_encoding ⟨[]⟩ _ 7 (by decide)⟩

/-- Association-list lookup over a map whose values are computed from
the keys alone: it yields the computed value for every present key. -/
theorem lookup_map_keyed {β : Type} (l : List (String × α)) (f : String → β) (k : String)
    (hk : k ∈ l.map (·.1)) :
    List.lookup k (l.map (fun p => (p.1, f p.1))) = some (f k) := by
  induction l with
  | nil => simp at hk
  | cons p rest ih =>
    by_cases h : k = p.1
    · subst h
      simp [List.lookup]
    · have hbeq : (k == p.1) = false := beq_eq_false_iff_ne.mpr h
      simp only [List.map_cons, List.lookup, hbeq]
      exact ih (by simpa [List.mem_cons, h] using hk)

/-- Inner loop of `getSparklines` for one endpoint id: one point per
snapshot, `ep.s === 0 ? -1 : ep.ms` when present, `null` when absent. -/
def sparkPoints (snaps : List Snapshot) (k : String) : List (Option Int) :=
  snaps.map (fun snap =>
    match List.lookup k snap.ep with
    | some e => some (if e.s = 0 then -1 else e.ms)
    | none => none)

/-- `getSparklines(history)`: for each endpoint id of the most recent
snapshot, the per-snapshot series of response times, with `-1` standing
in for DOWN snapshots and `null` (`none`) where the endpoint is absent. -/
def getSparklines (history : History) : JsObj (List (Option Int)) :=
  match history.snapshots.getLast? with
  | none => []
  | some latest =>
    latest.ep.map (fun p => (p.1, sparkPoints history.snapshots p.1))

/-- Claim C8: for a non-empty history, every endpoint id of the most
recent snapshot gets a sparkline whose length equals the number of
retained snapshots, aligned chronologically; each position holds the
recorded response time when the status code is UP (1) or DEGRADED (2),
the sentinel -1 when it is DOWN (0), and `none` when the endpoint is
absent from that snapshot. -/
theorem getSparklines_spec (h : History) (latest : Snapshot)
    (hlast : h.snapshots.getLast? = some latest) :
    ∀ id ∈ latest.ep.map (·.1), ∃ points : List (Option Int),
      List.lookup id (getSparklines h) = some points
      ∧ points.length = h.snapshots.length
      ∧ ∀ i : Nat, ∀ snap, h.snapshots[i]? = some snap →
          ((List.lookup id snap.ep = none → points[i]? = some none)
          ∧ ∀ e, List.lookup id snap.ep = some e →
              ((e.s = 0 → points[i]? = some (some (-1)))
              ∧ ((e.s = 1 ∨ e.s = 2) → points[i]? = some (some e.ms)))) := by
  intro id hid
  refine ⟨sparkPoints h.snapshots id, ?_, by simp [sparkPoints], ?_⟩
  · simp only [getSparklines, hlast]
    rw [lookup_map_keyed latest.ep (fun k => sparkPoints h.snapshots k) id hid]
  · intro i snap hsnap
    have hpt : (sparkPoints h.snapshots id)[i]?
        = some (match List.lookup id snap.ep with
                | some e => some (if e.s = 0 then -1 else e.ms)
                | none => none) := by
      rw [sparkPoints, List.getElem?_map, hsnap]
      rfl
    refine ⟨fun habs => ?_, fun e he => ⟨fun hs0 => ?_, fun hs12 => ?_⟩⟩
    · rw [hpt, habs]
    · rw [hpt, he]
      simp [hs0]
    · rw [hpt, he]
      have hne : ¬ e.s = 0 := by omega
      simp [hne]

/-- Inner loop of `getUptimes` for one endpoint id: count the snapshots
where it is present (`total`) and those where it is UP (`up`), then
`total > 0 ? Math.round((up / total) * 10000) / 100 : 100`. -/
def uptimeValue (snaps : List Snapshot) (k : String) : ℚ :=
  let counts := snaps.foldl
    (fun (c : Nat × Nat) snap =>
      match List.lookup k snap.ep with
      | some e => (c.1 + 1, if e.s = 1 then c.2 + 1 else c.2)
      | none => c) (0, 0)
  if 0 < counts.1
  then (round ((counts.2 : ℚ) / (counts.1 : ℚ) * 10000) : ℚ) / 100
  else 100

/-- `getUptimes(history)`: for each endpoint id of the most recent
snapshot, the percentage of retained snapshots in which it was UP. -/
def getUptimes (history : History) : JsObj ℚ :=
  match history.snapshots.getLast? with
  | none => []
  | some latest =>
    latest.ep.map (fun p => (p.1, uptimeValue history.snapshots p.1))

theorem uptime_counts_foldl (id : String) (snaps : List Snapshot) :
    ∀ a b : Nat,
      snaps.foldl
        (fun (c : Nat × Nat) snap =>
          match List.lookup id snap.ep with
          | some e => (c.1 + 1, if e.s = 1 then c.2 + 1 else c.2)
          | none => c) (a, b)
      = (a + (snaps.filter (fun s => (List.lookup id s.ep).isSome)).length,
         b + (snaps.filter (fun s =>
                match List.lookup id s.ep with
                | some e => decide (e.s = 1)
                | none => false)).length) := by
  induction snaps with
  | nil => simp
  | cons s rest ih =>
    intro a b
    simp only [List.foldl_cons, List.filter_cons]
    cases hl : List.lookup id s.ep with
    | none => simp [hl, ih]
    | some e =>
      by_cases hs : e.s = 1
      · simp [hl, hs, ih, Prod.ext_iff]
        omega
      · simp [hl, hs, ih, Prod.ext_iff]
        omega

/-- Claim C7: for a non-empty history, every endpoint id of the most
recent snapshot gets uptime `(UP count) / (present count) × 100`,
rounded to two decimal places, with a default of 100 when the endpoint
has zero observations. -/
theorem getUptimes_spec (h : History) (latest : Snapshot)
    (hlast : h.snapshots.getLast? = some latest) :
    ∀ id ∈ latest.ep.map (·.1),
      List.lookup id (getUptimes h)
        = some
          (if 0 < (h.snapshots.filter (fun s => (List.lookup id s.ep).isSome)).length
           then (round
              (((h.snapshots.filter (fun s =>
                    match List.lookup id s.ep with
                    | some e => decide (e.s = 1)
                    | none => false)).length : ℚ)
                / ((h.snapshots.filter (fun s => (List.lookup id s.ep).isSome)).length : ℚ)
                * 100 * 100) : ℚ) / 100
           else 100) := by
  intro id hid
  simp only [getUptimes, hlast]
  rw [lookup_map_keyed latest.ep (fun k => uptimeValue h.snapshots k) id hid]
  rw [uptimeValue, uptime_counts_foldl id h.snapshots 0 0]
  simp only [Nat.zero_add]
  congr 2
  rw [mul_assoc]
  norm_num

/-!  ### Stable sorting, modelling `Array.prototype.sort` with a comparator -/

/-- Insert `x` after every element `y` with `le y x` (so later-arriving
elements land after equal ones, as in a stable sort). -/
def insertSorted (le : α → α → Bool) (x : α) : List α → List α
  | [] => [x]
  | y :: ys => if le y x then y :: insertSorted le x ys else x :: y :: ys

/-- Stable insertion sort: the result JS's stable `Array.prototype.sort`
produces for a comparator inducing the total preorder `le`. -/
def stableSort (le : α → α → Bool) (l : List α) : List α :=
  l.foldl (fun acc x => insertSorted le x acc) []

theorem mem_insertSorted (le : α → α → Bool) (x a : α) (l : List α) :
    a ∈ insertSorted le x l ↔ a = x ∨ a ∈ l := by
  induction l with
  | nil => simp [insertSorted]
  | cons y ys ih =>
    by_cases h : le y x = true
    · rw [insertSorted, if_pos h]
      simp only [List.mem_cons, ih]
      tauto
    · rw [insertSorted, if_neg h]
      simp only [List.mem_cons]

theorem pairwise_insertSorted (le : α → α → Bool)
    (htrans : ∀ a b c, le a b = true → le b c = true → le a c = true)
    (htotal : ∀ a b, (le a b || le b a) = true)
    (x : α) (l : List α) (hl : List.Pairwise (fun a b => le a b = true) l) :
    List.Pairwise (fun a b => le a b = true) (insertSorted le x l) := by
  induction l with
  | nil => simp [insertSorted]
  | cons y ys ih =>
    rcases List.pairwise_cons.mp hl with ⟨hy, hys⟩
    by_cases h : le y x = true
    · rw [insertSorted, if_pos h]
      refine List.pairwise_cons.mpr ⟨?_, ih hys⟩
      intro a ha
      rcases (mem_insertSorted le x a ys).mp ha with rfl | ha
      · exact h
      · exact hy a ha
    · rw [insertSorted, if_neg h]
      have hxy : le x y = true := by
        have ht := htotal y x
        cases hyx : le y x with
        | true => exact absurd hyx h
        | false => simpa [hyx] using ht
      refine List.pairwise_cons.mpr ⟨?_, hl⟩
      intro a ha
      rcases List.mem_cons.mp ha with rfl | ha
      · exact hxy
      · exact htrans x y a hxy (hy a ha)

theorem pairwise_stableSort (le : α → α → Bool)
    (htrans : ∀ a b c, le a b = true → le b c = true → le a c = true)
    (htotal : ∀ a b, (le a b || le b a) = true) (l : List α) :
    List.Pairwise (fun a b => le a b = true) (stableSort le l) := by
  rw [stableSort]
  have : ∀ acc : List α, List.Pairwise (fun a b => le a b = true) acc →
      List.Pairwise (fun a b => le a b = true)
        (l.foldl (fun acc x => insertSorted le x acc) acc) := by
    induction l with
    | nil => intro acc hacc; simpa using hacc
    | cons x xs ih =>
      intro acc hacc
      simp only [List.foldl_cons]
      exact ih _ (pairwise_insertSorted le htrans htotal x acc hacc)
  exact this [] (by simp)

/-!  ### lib/history.js — getIncidents  -/

/-- An incident record: endpoint id, old and new status names, and the
time `at` of the later snapshot (field `atTime` here since `at` is a
reserved word). -/
structure Incident where
  id : String
  fromStatus : String
  toStatus : String
  atTime : Int
deriving DecidableEq

/-- `STATUS_NAMES[s] || 'UNKNOWN'` from `getIncidents`. -/
def STATUS_NAME (n : Nat) : String :=
  if n = 0 then "DOWN" else if n = 1 then "UP" else if n = 2 then "DEGRADED" else "UNKNOWN"

/-- One step of the `getIncidents` scan, for one endpoint entry of the
snapshot taken at time `t`: emit an incident when the tracked status
differs, then update the tracked status. -/
def incidentScanStep (t : Int) (st : JsObj Nat × List Incident) (p : String × EpEntry) :
    JsObj Nat × List Incident :=
  let prev := List.lookup p.1 st.1
  let curr := p.2.s
  let incs := match prev with
    | some pv =>
      if pv ≠ curr then st.2 ++ [⟨p.1, STATUS_NAME pv, STATUS_NAME curr, t⟩] else st.2
    | none => st.2
  (objInsert p.1 curr st.1, incs)

/-- `getIncidents(history)`: seed the per-endpoint status from the first
snapshot, scan the remaining snapshots for transitions, and sort the
incidents newest first (`incidents.sort((a, b) => b.at - a.at)`). -/
def getIncidents (history : History) : List Incident :=
  match history.snapshots with
  | first :: s₂ :: rest =>
    let cs₀ := first.ep.foldl (fun cs p => objInsert p.1 p.2.s cs) ([] : JsObj Nat)
    let scanned := (s₂ :: rest).foldl
      (fun st snap => snap.ep.foldl (incidentScanStep snap.t) st) (cs₀, ([] : List Incident))
    stableSort (fun a b => decide (b.atTime ≤ a.atTime)) scanned.2
  | _ => []

/-- Status of the chronologically last observation of `id` within
`snaps` (the specification's notion of the earlier member of a pair of
adjacent observations). -/
def lastObservedStatus (snaps : List Snapshot) (id : String) : Option Nat :=
  snaps.foldl (fun acc snap =>
    match List.lookup id snap.ep with
    | some e => some e.s
    | none => acc) none

/-- Specification-side incidents contributed by one snapshot: one record
per endpoint present in it whose status differs from its last previous
observation, stamped with the later snapshot's time. -/
def snapshotIncidents (seen : List Snapshot) (snap : Snapshot) : List Incident :=
  snap.ep.filterMap (fun p =>
    match lastObservedStatus seen p.1 with
    | some pv =>
      if pv ≠ p.2.s then some ⟨p.1, STATUS_NAME pv, STATUS_NAME p.2.s, snap.t⟩ else none
    | none => none)

/-- Specification-side incident list: for every snapshot after the seen
chronological prefix, the transitions relative to each endpoint's last
previous observation, in snapshot order. -/
def adjacentIncidents : List Snapshot → List Snapshot → List Incident
  | _, [] => []
  | seen, snap :: rest => snapshotIncidents seen snap ++ adjacentIncidents (seen ++ [snap]) rest

theorem lookup_eq_none_of_not_mem {β : Type} (l : List (String × β)) (id : String)
    (h : id ∉ l.map (·.1)) : List.lookup id l = none := by
  induction l with
  | nil => rfl
  | cons p rest ih =>
    simp only [List.map_cons, List.mem_cons, not_or] at h
    have hbeq : (id == p.1) = false := beq_eq_false_iff_ne.mpr h.1
    simp [List.lookup, hbeq, ih h.2]

theorem lookup_foldl_statusInsert (l : List (String × EpEntry)) (id : String)
    (hnodup : (l.map (·.1)).Nodup) :
    ∀ cs : JsObj Nat,
      List.lookup id (l.foldl (fun cs p => objInsert p.1 p.2.s cs) cs)
        = match List.lookup id l with
          | some e => some e.s
          | none => List.lookup id cs := by
  induction l with
  | nil => intro cs; simp
  | cons p rest ih =>
    intro cs
    obtain ⟨k, v⟩ := p
    simp only [List.map_cons, List.nodup_cons] at hnodup
    simp only [List.foldl_cons]
    rw [ih hnodup.2]
    by_cases h : id = k
    · have hnr : List.lookup id rest = none := by
        rw [h]
        exact lookup_eq_none_of_not_mem rest k hnodup.1
      have hbeq : (id == k) = true := beq_iff_eq.mpr h
      rw [hnr]
      have hself : List.lookup id (objInsert k v.s cs) = some v.s := by
        rw [h]
        exact lookup_objInsert_self _ _ _
      simp [List.lookup, hbeq, hself]
    · have hbeq : (id == k) = false := beq_eq_false_iff_ne.mpr h
      rw [lookup_objInsert_ne _ _ _ _ h]
      simp [List.lookup, hbeq]

/-- The tracked-status component of the scan ignores the incident
component: it is the plain status fold. -/
theorem incidentScan_fst (t : Int) (l : List (String × EpEntry)) :
    ∀ (cs : JsObj Nat) (incs : List Incident),
      (l.foldl (incidentScanStep t) (cs, incs)).1
        = l.foldl (fun cs p => objInsert p.1 p.2.s cs) cs := by
  induction l with
  | nil => intro cs incs; rfl
  | cons p rest ih =>
    intro cs incs
    simp only [List.foldl_cons, incidentScanStep]
    exact ih _ _

/-- The incidents emitted while scanning one snapshot's entries, when
its keys are unique: each entry is judged against the tracked status at
the start of the snapshot. -/
theorem incidentScan_snd (t : Int) (l : List (String × EpEntry))
    (hnodup : (l.map (·.1)).Nodup) :
    ∀ (cs : JsObj Nat) (incs : List Incident),
      (l.foldl (incidentScanStep t) (cs, incs)).2
        = incs ++ l.filterMap (fun p =>
            match List.lookup p.1 cs with
            | some pv =>
              if pv ≠ p.2.s then some ⟨p.1, STATUS_NAME pv, STATUS_NAME p.2.s, t⟩ else none
            | none => none) := by
  induction l with
  | nil => intro cs incs; simp
  | cons p rest ih =>
    intro cs incs
    simp only [List.map_cons, List.nodup_cons] at hnodup
    simp only [List.foldl_cons, List.filterMap_cons, incidentScanStep]
    have hrest : rest.filterMap (fun q =>
        (match List.lookup q.1 (objInsert p.1 p.2.s cs) with
        | some pv =>
          if pv ≠ q.2.s then some ⟨q.1, STATUS_NAME pv, STATUS_NAME q.2.s, t⟩ else none
        | none => none : Option Incident))
      = rest.filterMap (fun q =>
        (match List.lookup q.1 cs with
        | some pv =>
          if pv ≠ q.2.s then some ⟨q.1, STATUS_NAME pv, STATUS_NAME q.2.s, t⟩ else none
        | none => none : Option Incident)) := by
      apply List.filterMap_congr
      intro q hq
      have hne : q.1 ≠ p.1 := by
        intro hcontra
        exact hnodup.1 (hcontra ▸ List.mem_map_of_mem (·.1) hq)
      rw [lookup_objInsert_ne _ _ _ _ hne]
    cases hl : List.lookup p.1 cs with
    | none =>
      dsimp only
      rw [ih hnodup.2, hrest]
    | some pv =>
      dsimp only
      by_cases hne : pv ≠ p.2.s
      · rw [if_pos hne, if_pos hne, ih hnodup.2, hrest, List.append_assoc]
        rfl
      · rw [if_neg hne, if_neg hne, ih hnodup.2, hrest]

theorem lastObservedStatus_append (seen : List Snapshot) (snap : Snapshot) (id : String) :
    lastObservedStatus (seen ++ [snap]) id
      = match List.lookup id snap.ep with
        | some e => some e.s
        | none => lastObservedStatus seen id := by
  simp only [lastObservedStatus, List.foldl_append, List.foldl_cons, List.foldl_nil]

/-- Main scan lemma: starting from any tracked-status map that agrees
with the last observations over the seen prefix, the scan emits exactly
the specification-side incident list. -/
theorem incidentScan_eq (snaps : List Snapshot)
    (hkeys : ∀ snap ∈ snaps, (snap.ep.map (·.1)).Nodup) :
    ∀ (seen : List Snapshot) (cs : JsObj Nat) (incs : List Incident),
      (∀ id, List.lookup id cs = lastObservedStatus seen id) →
      (snaps.foldl (fun st snap => snap.ep.foldl (incidentScanStep snap.t) st) (cs, incs)).2
        = incs ++ adjacentIncidents seen snaps := by
  induction snaps with
  | nil => intro seen cs incs _; simp [adjacentIncidents]
  | cons snap rest ih =>
    intro seen cs incs hinv
    have hsnap : (snap.ep.map (·.1)).Nodup := hkeys snap (List.mem_cons_self _ _)
    have hrest : ∀ s ∈ rest, (s.ep.map (·.1)).Nodup :=
      fun s hs => hkeys s (List.mem_cons_of_mem _ hs)
    simp only [List.foldl_cons, adjacentIncidents]
    have hstep : snap.ep.foldl (incidentScanStep snap.t) (cs, incs)
        = (snap.ep.foldl (fun cs p => objInsert p.1 p.2.s cs) cs,
           incs ++ snapshotIncidents seen snap) := by
      have h1 := incidentScan_fst snap.t snap.ep cs incs
      have h2 := incidentScan_snd snap.t snap.ep hsnap cs incs
      have h2s : (snap.ep.foldl (incidentScanStep snap.t) (cs, incs)).2
          = incs ++ snapshotIncidents seen snap := by
        rw [h2, snapshotIncidents]
        congr 1
        apply List.filterMap_congr
        intro q _
        rw [hinv q.1]
      exact Prod.ext h1 h2s
    rw [hstep]
    rw [ih hrest (seen ++ [snap]) _ _ ?_, List.append_assoc]
    intro id
    rw [lookup_foldl_statusInsert snap.ep id hsnap cs, lastObservedStatus_append, hinv id]

theorem filterMap_const_none {β : Type} (l : List α) :
    l.filterMap (fun _ => (none : Option β)) = [] := by
  induction l with
  | nil => rfl
  | cons q qs ihq => simp [ihq]

theorem getIncidents_eq_adjacent (snaps : List Snapshot)
    (hkeys : ∀ snap ∈ snaps, (snap.ep.map (·.1)).Nodup) :
    getIncidents ⟨snaps⟩
      = stableSort (fun a b => decide (b.atTime ≤ a.atTime))
          (adjacentIncidents [] snaps) := by
  cases snaps with
  | nil => simp [getIncidents, adjacentIncidents, stableSort]
  | cons first tail =>
    cases tail with
    | nil =>
      simp only [getIncidents, adjacentIncidents, snapshotIncidents, lastObservedStatus,
        List.foldl_nil]
      simp only [stableSort, List.append_nil]
      rw [filterMap_const_none]
      rfl
    | cons s₂ rest =>
      simp only [getIncidents]
      have hk : ∀ snap ∈ s₂ :: rest, (snap.ep.map (·.1)).Nodup := by
        intro snap hs
        exact hkeys snap (List.mem_cons_of_mem _ hs)
      have hfirst : (first.ep.map (·.1)).Nodup :=
        hkeys first (List.mem_cons_self _ _)
      have hinv : ∀ id, List.lookup id
          (first.ep.foldl (fun cs p => objInsert p.1 p.2.s cs) ([] : JsObj Nat))
            = lastObservedStatus [first] id := by
        intro id
        rw [lookup_foldl_statusInsert first.ep id hfirst]
        simp only [lastObservedStatus, List.foldl_cons, List.foldl_nil, List.lookup_nil]
      have hscan := incidentScan_eq (s₂ :: rest) hk [first]
        (first.ep.foldl (fun cs p => objInsert p.1 p.2.s cs) []) [] hinv
      rw [hscan, List.nil_append]
      have hshift : adjacentIncidents [] (first :: s₂ :: rest)
          = adjacentIncidents [first] (s₂ :: rest) := by
        simp only [adjacentIncidents, snapshotIncidents, lastObservedStatus,
          List.foldl_nil, List.nil_append]
        simp
      rw [hshift]

/-- Claim C6: `getIncidents` emits one incident per pair of adjacent
observations of the same endpoint with differing statuses, stamped with
the later snapshot's time; the first snapshot only seeds the baseline;
and the result is sorted newest first (descending by `at`). -/
theorem getIncidents_spec (h : History)
    (hkeys : ∀ snap ∈ h.snapshots, (snap.ep.map (·.1)).Nodup) :
    getIncidents h
      = stableSort (fun a b => decide (b.atTime ≤ a.atTime))
          (adjacentIncidents [] h.snapshots)
    ∧ (getIncidents h).Sorted (fun a b => b.atTime ≤ a.atTime) := by
  have htrans : ∀ a b c : Incident, decide (b.atTime ≤ a.atTime) = true →
      decide (c.atTime ≤ b.atTime) = true → decide (c.atTime ≤ a.atTime) = true := by
    intro a b c hab hbc
    simp only [decide_eq_true_eq] at hab hbc ⊢
    omega
  have htotal : ∀ a b : Incident,
      (decide (b.atTime ≤ a.atTime) || decide (a.atTime ≤ b.atTime)) = true := by
    intro a b
    simp only [Bool.or_eq_true, decide_eq_true_eq]
    omega
  have hmain : getIncidents h
      = stableSort (fun a b => decide (b.atTime ≤ a.atTime))
          (adjacentIncidents [] h.snapshots) :=
    getIncidents_eq_adjacent h.snapshots hkeys
  refine ⟨hmain, ?_⟩
  rw [hmain]
  have hp := pairwise_stableSort (fun a b : Incident => decide (b.atTime ≤ a.atTime))
    htrans htotal (adjacentIncidents [] h.snapshots)
  exact hp.imp (fun hab => by simpa [decide_eq_true_eq] using hab)

/-!  ### Concrete histories used by the history-store witnesses  -/

def sparkExLatest : Snapshot := ⟨2, [("api", ⟨2, 30⟩)]⟩

def sparkExHistory : History :=
  ⟨[⟨0, [("api", ⟨1, 10⟩)]⟩, ⟨1, [("api", ⟨0, 99⟩)]⟩, sparkExLatest]⟩

/-- Witness for C8: three snapshots for one endpoint, UP then DOWN then
DEGRADED; the DOWN position yields the sentinel -1. -/
theorem getSparklines_spec_witness :
    (sparkExHistory.snapshots.getLast? = some sparkExLatest
      ∧ "api" ∈ sparkExLatest.ep.map (·.1))
    ∧ (∃ points : List (Option Int),
        List.lookup "api" (getSparklines sparkExHistory) = some points
        ∧ points.length = sparkExHistory.snapshots.length
        ∧ ∀ i : Nat, ∀ snap, sparkExHistory.snapshots[i]? = some snap →
            ((List.lookup "api" snap.ep = none → points[i]? = some none)
            ∧ ∀ e, List.lookup "api" snap.ep = some e →
                ((e.s = 0 → points[i]? = some (some (-1)))
                ∧ ((e.s = 1 ∨ e.s = 2) → points[i]? = some (some e.ms)))))
    ∧ List.lookup "api" (getSparklines sparkExHistory)
        = some [some 10, some (-1), some 30] :=
  ⟨⟨by decide, by decide⟩,
   getSparklines_spec sparkExHistory sparkExLatest (by decide) "api" (by decide),
   by decide⟩

def uptimeExLatest : Snapshot := ⟨9, [("api", ⟨1, 5⟩)]⟩

def uptimeExHistory : History :=
  ⟨[⟨0, [("api", ⟨1, 5⟩)]⟩, ⟨1, [("api", ⟨1, 5⟩)]⟩, ⟨2, [("api", ⟨0, 0⟩)]⟩,
    ⟨3, [("api", ⟨1, 5⟩)]⟩, ⟨4, [("api", ⟨1, 5⟩)]⟩, ⟨5, [("api", ⟨0, 0⟩)]⟩,
    ⟨6, [("api", ⟨1, 5⟩)]⟩, ⟨7, [("api", ⟨1, 5⟩)]⟩, ⟨8, [("api", ⟨1, 5⟩)]⟩,
    uptimeExLatest]⟩

unseal Rat.mul Rat.add Rat.inv Rat.sub in
/-- Witness for C7: an endpoint present in 10 snapshots and UP in 8 of
them yields exactly 80.00. -/
theorem getUptimes_spec_witness :
    (uptimeExHistory.snapshots.getLast? = some uptimeExLatest
      ∧ "api" ∈ uptimeExLatest.ep.map (·.1))
    ∧ List.lookup "api" (getUptimes uptimeExHistory) = some 80 := by
  refine ⟨⟨by decide, by decide⟩, ?_⟩
  rw [getUptimes_spec uptimeExHistory uptimeExLatest (by decide) "api" (by decide)]
  decide

def incExHistory : History :=
  ⟨[⟨10, [("api", ⟨1, 5⟩)]⟩, ⟨20, [("api", ⟨1, 5⟩)]⟩, ⟨30, [("api", ⟨0, 0⟩)]⟩,
    ⟨40, [("api", ⟨0, 0⟩)]⟩, ⟨50, [("api", ⟨1, 5⟩)]⟩]⟩

/-- Witness for C6: a status sequence UP,UP,DOWN,DOWN,UP across 5
snapshots yields exactly two incidents, UP→DOWN at the third snapshot's
time and DOWN→UP at the fifth's, returned newest first. -/
theorem getIncidents_spec_witness :
    (∀ snap ∈ incExHistory.snapshots, (snap.ep.map (·.1)).Nodup)
    ∧ (getIncidents incExHistory
        = stableSort (fun a b => decide (b.atTime ≤ a.atTime))
            (adjacentIncidents [] incExHistory.snapshots)
      ∧ (getIncidents incExHistory).Sorted (fun a b => b.atTime ≤ a.atTime))
    ∧ getIncidents incExHistory
        = [⟨"api", "DOWN", "UP", 50⟩, ⟨"api", "UP", "DOWN", 30⟩] :=
  ⟨by decide, getIncidents_spec incExHistory (by decide), by decide⟩

/-!  ## lib/health-config.js — endpoint registry and filtering  -/

/-- An endpoint descriptor (the registry fields the core reads). -/
structure Endpoint where
  id : String
  name : String := ""
  category : String := ""
  environment : Option String := none
  url : String := ""
  checkType : String := ""
  enabled : Bool := true
  expectedChainId : Option String := none
  dependsOn : List String := []
  impacts : List String := []
deriving DecidableEq

/-- `CHAIN_HALT_THRESHOLD_SECONDS = 60`. -/
def CHAIN_HALT_THRESHOLD_SECONDS : ℚ := 60

/-- Options accepted by `getEndpoints` (absent keys are `none`). -/
structure GetOpts where
  enabledOnly : Option Bool := none
  category : Option String := none
  environment : Option String := none

/-- `getEndpoints(opts)` over an explicit registry list: filter to
enabled endpoints unless `opts.enabledOnly === false`, then by category
and environment when those options are present. -/
def getEndpoints (endpoints : List Endpoint) (opts : GetOpts) : List Endpoint :=
  let eps := endpoints
  let eps := if opts.enabledOnly ≠ some false then eps.filter (fun e => e.enabled) else eps
  let eps := match opts.category with
    | some c => eps.filter (fun e => decide (e.category = c))
    | none => eps
  match opts.environment with
  | some env => eps.filter (fun e => decide (e.environment = some env))
  | none => eps

/-!  ## lib/health.js — result builder, dispatcher, cosmos probes  -/

/-- A thrown JS error: its `code` property (when set), its `message`,
and its `String(err)` rendering. -/
structure JsError where
  code : Option String := none
  message : String := ""
  strRepr : String := ""
deriving DecidableEq

/-- The check-type-specific `details` bag, with one optional slot per
fact the modelled probes record. -/
structure HDetails where
  blockHeight : Option Int := none
  chainId : Option String := none
  syncing : Option Bool := none
  peerCount : Option Int := none
  latestBlockTimeMs : Option Int := none
  catchingUp : Option Bool := none
  blockAgeSec : Option Int := none
  statusCode : Option Nat := none
  bondedValidators : Option Int := none
deriving DecidableEq

/-- A Check Result (the fields the core writes; the wall-clock
`timestamp` and the informational passthrough fields are omitted). -/
structure HResult where
  id : String
  name : String
  url : String
  category : String
  environment : String
  status : String
  responseTimeMs : Int
  details : HDetails
  error : Option String
  dependsOn : List String
  impacts : List String
deriving DecidableEq

/-- The `result(ep, status, responseTimeMs, details, error)` builder. -/
def result (ep : Endpoint) (status : String) (responseTimeMs : Int)
    (details : HDetails) (error : Option String) : HResult :=
  { id := ep.id, name := ep.name, url := ep.url, category := ep.category,
    environment := ep.environment.getD "prod", status := status,
    responseTimeMs := responseTimeMs, details := details, error := error,
    dependsOn := ep.dependsOn, impacts := ep.impacts }

/-- The keys of the `CHECK_FNS` dispatch table. -/
def CHECK_TYPES : List String :=
  ["evm-rpc", "cosmos-rpc", "cosmos-rest", "http-json", "http-get", "websocket",
   "api-health", "http-reachable", "deep-health", "graphql", "cosmos-peer-check"]

/-- Outcome of invoking a probe: a returned Check Result, or the JS
exception it threw. -/
abbrev ProbeOutcome := Except JsError HResult

/-- JS `a || b` on strings: the empty string is falsy. -/
def jsOrString (a b : String) : String := if a = "" then b else a

/-- `runCheck(ep)`, with the probe's behavior supplied explicitly as a
function from the endpoint to a returned result or thrown error. An
unknown check type yields DOWN without consulting the probe; a thrown
error is classified DOWN, or DEGRADED with the firewall message for a
connection-refused/reset/host-unreachable code on a `validators`
endpoint. -/
def runCheck (ep : Endpoint) (probe : Endpoint → ProbeOutcome) : HResult :=
  if ep.checkType ∉ CHECK_TYPES then
    result ep "DOWN" 0 {} (some ("Unknown check type: " ++ ep.checkType))
  else
    match probe ep with
    | Except.ok r => r
    | Except.error err =>
      let isFirewall : Bool := err.code == some "ECONNREFUSED"
        || err.code == some "ECONNRESET" || err.code == some "EHOSTUNREACH"
      let status := if ep.category = "validators" ∧ isFirewall = true
        then "DEGRADED" else "DOWN"
      let errMsg := if ep.category = "validators" ∧ isFirewall = true
        then "Unreachable (likely firewalled)" else jsOrString err.message err.strRepr
      result ep status 0 {} (some errMsg)

/-- `checkAll(opts)`: filter the registry (always restricting to enabled
endpoints, `Object.assign({enabledOnly: true}, opts)`) and run every
check. `Promise.allSettled` never observes a rejection because
`runCheck` catches every probe error, so the dispatcher is the plain
image of `runCheck` over the filtered list. -/
def checkAll (endpoints : List Endpoint) (opts : GetOpts)
    (probe : Endpoint → ProbeOutcome) : List HResult :=
  let eps := getEndpoints endpoints { opts with enabledOnly := some (opts.enabledOnly.getD true) }
  eps.map (fun ep => runCheck ep probe)

/-- Claim C1: `checkAll` returns exactly one Check Result per endpoint of
the filtered enabled-endpoint list, each the `runCheck` of that
endpoint, and a probe that throws never escapes: the corresponding
result exists and carries status DOWN or DEGRADED. -/
theorem checkAll_isolation (endpoints : List Endpoint) (opts : GetOpts)
    (probe : Endpoint → ProbeOutcome) :
    (checkAll endpoints opts probe).length
      = (getEndpoints endpoints
          { opts with enabledOnly := some (opts.enabledOnly.getD true) }).length
    ∧ (∀ i : Nat,
        (checkAll endpoints opts probe)[i]?
          = ((getEndpoints endpoints
              { opts with enabledOnly := some (opts.enabledOnly.getD true) })[i]?).map
                (fun ep => runCheck ep probe))
    ∧ ∀ i : Nat, ∀ ep,
        (getEndpoints endpoints
          { opts with enabledOnly := some (opts.enabledOnly.getD true) })[i]? = some ep →
        ∀ e, probe ep = Except.error e →
          ∃ r, (checkAll endpoints opts probe)[i]? = some r
            ∧ (r.status = "DOWN" ∨ r.status = "DEGRADED") := by
  refine ⟨by simp [checkAll], ?_, ?_⟩
  · intro i
    simp [checkAll, List.getElem?_map]
  · intro i ep hep e herr
    refine ⟨runCheck ep probe, ?_, ?_⟩
    · simp [checkAll, List.getElem?_map, hep]
    · by_cases hct : ep.checkType ∉ CHECK_TYPES
      · rw [runCheck, if_pos hct]
        left
        rfl
      · rw [runCheck, if_neg hct, herr]
        dsimp only [result]
        split_ifs with hc
        · right; rfl
        · left; rfl

def exThrowingEp : Endpoint :=
  { id := "bad", category := "apis", checkType := "http-get", enabled := true }

def exOkEp : Endpoint :=
  { id := "good", category := "apis", checkType := "http-get", enabled := true }

def exRegistry : List Endpoint := [exThrowingEp, exOkEp]

def exProbe : Endpoint → ProbeOutcome := fun ep =>
  if ep.id = "bad"
  then Except.error ⟨some "ECONNRESET", "socket hang up", "Error: socket hang up"⟩
  else Except.ok (result ep "UP" 5 {} none)

/-- Witness for C1: a two-endpoint registry whose first probe throws
still yields a result at that position, with a non-exceptional DOWN or
DEGRADED status. -/
theorem checkAll_isolation_witness :
    ((getEndpoints exRegistry
        { ({} : GetOpts) with
            enabledOnly := some (({} : GetOpts).enabledOnly.getD true) })[0]?
      = some exThrowingEp)
    ∧ exProbe exThrowingEp
        = Except.error ⟨some "ECONNRESET", "socket hang up", "Error: socket hang up"⟩
    ∧ ∃ r, (checkAll exRegistry {} exProbe)[0]? = some r
        ∧ (r.status = "DOWN" ∨ r.status = "DEGRADED") :=
  ⟨by decide, by rfl,
   (checkAll_isolation exRegistry {} exProbe).2.2 0 exThrowingEp (by decide)
     ⟨some "ECONNRESET", "socket hang up", "Error: socket hang up"⟩ (by rfl)⟩

/-- Claim C2: when a probe throws an error whose `code` is in the
connection-refused/reset/host-unreachable class, `runCheck` reports
DEGRADED with message "Unreachable (likely firewalled)" for an endpoint
of category `validators`, and DOWN with the underlying error's message
for every other category. -/
theorem runCheck_firewall_rule (ep : Endpoint) (probe : Endpoint → ProbeOutcome)
    (e : JsError)
    (hct : ep.checkType ∈ CHECK_TYPES)
    (hthrow : probe ep = Except.error e)
    (hfw : e.code = some "ECONNREFUSED" ∨ e.code = some "ECONNRESET"
      ∨ e.code = some "EHOSTUNREACH") :
    (ep.category = "validators" →
      (runCheck ep probe).status = "DEGRADED"
      ∧ (runCheck ep probe).error = some "Unreachable (likely firewalled)")
    ∧ (ep.category ≠ "validators" →
      (runCheck ep probe).status = "DOWN"
      ∧ (runCheck ep probe).error = some (jsOrString e.message e.strRepr)) := by
  have hct2 : ¬ ep.checkType ∉ CHECK_TYPES := fun hcon => hcon hct
  have hfwb : (e.code == some "ECONNREFUSED" || e.code == some "ECONNRESET"
      || e.code == some "EHOSTUNREACH") = true := by
    rcases hfw with h | h | h <;> simp [h]
  constructor
  · intro hval
    rw [runCheck, if_neg hct2, hthrow]
    dsimp only [result]
    rw [if_pos ⟨hval, hfwb⟩, if_pos ⟨hval, hfwb⟩]
    exact ⟨rfl, rfl⟩
  · intro hnval
    have hncond : ¬ (ep.category = "validators"
        ∧ (e.code == some "ECONNREFUSED" || e.code == some "ECONNRESET"
            || e.code == some "EHOSTUNREACH") = true) :=
      fun hcon => hnval hcon.1
    rw [runCheck, if_neg hct2, hthrow]
    dsimp only [result]
    rw [if_neg hncond, if_neg hncond]
    exact ⟨rfl, rfl⟩

def valEp : Endpoint := { id := "v", category := "validators", checkType := "cosmos-peer-check" }

def apiEp : Endpoint := { id := "a", category := "apis", checkType := "http-reachable" }

def connRefusedErr : JsError :=
  ⟨some "ECONNREFUSED", "connect ECONNREFUSED 1.2.3.4:26657", "Error: connect ECONNREFUSED"⟩

def refusingProbe : Endpoint → ProbeOutcome := fun _ => Except.error connRefusedErr

/-- Witness for C2: a connection-refused error yields DEGRADED with the
firewall message on a validator and DOWN with the error's message on an
API endpoint. -/
theorem runCheck_firewall_rule_witness :
    (valEp.checkType ∈ CHECK_TYPES
      ∧ refusingProbe valEp = Except.error connRefusedErr
      ∧ connRefusedErr.code = some "ECONNREFUSED")
    ∧ ((runCheck valEp refusingProbe).status = "DEGRADED"
      ∧ (runCheck valEp refusingProbe).error = some "Unreachable (likely firewalled)")
    ∧ ((runCheck apiEp refusingProbe).status = "DOWN"
      ∧ (runCheck apiEp refusingProbe).error
          = some "connect ECONNREFUSED 1.2.3.4:26657") := by
  refine ⟨⟨by decide, by rfl, by decide⟩, ?_, ?_⟩
  · exact (runCheck_firewall_rule valEp refusingProbe connRefusedErr (by decide) (by rfl)
      (Or.inl (by decide))).1 (by decide)
  · have h2 := (runCheck_firewall_rule apiEp refusingProbe connRefusedErr (by decide) (by rfl)
      (Or.inl (by decide))).2 (by decide)
    exact ⟨h2.1, by rw [h2.2]; decide⟩

/-!  ### Cosmos probes — block-age classification  -/

/-- Parsed `sync_info` of a Tendermint `/status` response:
`latest_block_height` (already `parseInt`ed), the parsed
`latest_block_time` in ms since epoch, and `catching_up`. -/
structure SyncInfo where
  latestBlockHeight : Int
  latestBlockTimeMs : Int
  catchingUp : Bool
deriving DecidableEq

/-- Parsed block header of a Cosmos REST `blocks/latest` response. -/
structure BlockHeader where
  height : Int
  timeMs : Int
  chainId : String
deriving DecidableEq

/-- `checkCosmosRpc(ep)` after its network round trips, as a function of
the parsed `/status` response (`statusCode`, optional `sync_info`), the
current time, and the optional peer count obtained from `/net_info`
(`none` when that best-effort call failed or returned non-200). -/
def checkCosmosRpc (ep : Endpoint) (now elapsed : Int) (statusCode : Nat)
    (syncInfo : Option SyncInfo) (netPeerCount : Option (Option Int)) : ProbeOutcome :=
  if statusCode ≠ 200 then
    Except.error { message := "HTTP " ++ toString statusCode,
                   strRepr := "Error: HTTP " ++ toString statusCode }
  else
    match syncInfo with
    | some si =>
      let blockAge : ℚ := ((now : ℚ) - (si.latestBlockTimeMs : ℚ)) / 1000
      let details : HDetails :=
        { blockHeight := some si.latestBlockHeight,
          latestBlockTimeMs := some si.latestBlockTimeMs,
          catchingUp := some si.catchingUp,
          blockAgeSec := some (round blockAge) }
      if blockAge > CHAIN_HALT_THRESHOLD_SECONDS then
        Except.ok (result ep "DEGRADED" elapsed details
          (some ("Possible chain halt — last block " ++ toString (round blockAge) ++ "s ago")))
      else if si.catchingUp then
        Except.ok (result ep "DEGRADED" elapsed details (some "Node is catching up"))
      else
        Except.ok (result ep "UP" elapsed
          { details with peerCount := netPeerCount.getD none } none)
    | none =>
      Except.ok (result ep "UP" elapsed { peerCount := netPeerCount.getD none } none)

/-- `checkCosmosRest(ep)` after its network round trips, as a function
of the parsed `blocks/latest` response (`statusCode`, optional header),
the current time, and the optional bonded-validator count. -/
def checkCosmosRest (ep : Endpoint) (now elapsed : Int) (statusCode : Nat)
    (header : Option BlockHeader) (bondedValidators : Option (Option Int)) : ProbeOutcome :=
  if statusCode ≠ 200 then
    Except.error { message := "HTTP " ++ toString statusCode,
                   strRepr := "Error: HTTP " ++ toString statusCode }
  else
    match header with
    | some hd =>
      let blockAge : ℚ := ((now : ℚ) - (hd.timeMs : ℚ)) / 1000
      let details : HDetails :=
        { blockHeight := some hd.height,
          latestBlockTimeMs := some hd.timeMs,
          chainId := some hd.chainId,
          blockAgeSec := some (round blockAge) }
      if blockAge > CHAIN_HALT_THRESHOLD_SECONDS then
        Except.ok (result ep "DEGRADED" elapsed details
          (some ("Possible chain halt — last block " ++ toString (round blockAge) ++ "s ago")))
      else
        Except.ok (result ep "UP" elapsed
          { details with bondedValidators := bondedValidators.getD none } none)
    | none =>
      Except.ok (result ep "UP" elapsed
        { bondedValidators := bondedValidators.getD none } none)

/-- The result of a probe outcome that did not throw. -/
def probeOk? : ProbeOutcome → Option HResult
  | Except.ok r => some r
  | Except.error _ => none

def exCosmosEp : Endpoint := { id := "rpc", category := "blockchain", checkType := "cosmos-rpc" }

unseal Rat.mul Rat.add Rat.inv Rat.sub in
/-- Claim C9: for the cosmos-rpc and cosmos-rest probes on a reachable
endpoint whose block time parses, `details.blockAgeSec` is
`(now − latest-block-time) / 1000` rounded to the nearest second, the
unrounded age is compared against the 60-second halt threshold, and an
age above the threshold yields DEGRADED with the chain-halt message; in
particular a block 120 seconds old yields DEGRADED with
`blockAgeSec = 120`. -/
theorem cosmos_block_age_spec :
    (∀ (ep : Endpoint) (now elapsed : Int) (si : SyncInfo) (np : Option (Option Int)),
      ∃ r, checkCosmosRpc ep now elapsed 200 (some si) np = Except.ok r
        ∧ r.details.blockAgeSec
            = some (round (((now : ℚ) - (si.latestBlockTimeMs : ℚ)) / 1000))
        ∧ ((((now : ℚ) - (si.latestBlockTimeMs : ℚ)) / 1000 > CHAIN_HALT_THRESHOLD_SECONDS) →
            r.status = "DEGRADED"
            ∧ r.error = some ("Possible chain halt — last block "
                ++ toString (round (((now : ℚ) - (si.latestBlockTimeMs : ℚ)) / 1000))
                ++ "s ago")))
    ∧ (∀ (ep : Endpoint) (now elapsed : Int) (hd : BlockHeader) (bv : Option (Option Int)),
      ∃ r, checkCosmosRest ep now elapsed 200 (some hd) bv = Except.ok r
        ∧ r.details.blockAgeSec
            = some (round (((now : ℚ) - (hd.timeMs : ℚ)) / 1000))
        ∧ ((((now : ℚ) - (hd.timeMs : ℚ)) / 1000 > CHAIN_HALT_THRESHOLD_SECONDS) →
            r.status = "DEGRADED"
            ∧ r.error = some ("Possible chain halt — last block "
                ++ toString (round (((now : ℚ) - (hd.timeMs : ℚ)) / 1000))
                ++ "s ago")))
    ∧ ((probeOk? (checkCosmosRpc exCosmosEp 120000 5 200 (some ⟨987, 0, false⟩) none)).map
          (fun r => (r.status, r.details.blockAgeSec)) = some ("DEGRADED", some 120)
      ∧ (probeOk? (checkCosmosRest exCosmosEp 120000 5 200 (some ⟨987, 0, "integra-1"⟩) none)).map
          (fun r => (r.status, r.details.blockAgeSec)) = some ("DEGRADED", some 120)) := by
  refine ⟨?_, ?_, by decide, by decide⟩
  · intro ep now elapsed si np
    simp only [checkCosmosRpc]
    rw [if_neg (by simp : ¬ ((200 : Nat) ≠ 200))]
    by_cases hage : ((now : ℚ) - (si.latestBlockTimeMs : ℚ)) / 1000
        > CHAIN_HALT_THRESHOLD_SECONDS
    · rw [if_pos hage]
      exact ⟨_, rfl, rfl, fun _ => ⟨rfl, rfl⟩⟩
    · rw [if_neg hage]
      by_cases hcu : si.catchingUp = true
      · rw [if_pos hcu]
        exact ⟨_, rfl, rfl, fun hcon => absurd hcon hage⟩
      · rw [if_neg hcu]
        exact ⟨_, rfl, rfl, fun hcon => absurd hcon hage⟩
  · intro ep now elapsed hd bv
    simp only [checkCosmosRest]
    rw [if_neg (by simp : ¬ ((200 : Nat) ≠ 200))]
    by_cases hage : ((now : ℚ) - (hd.timeMs : ℚ)) / 1000 > CHAIN_HALT_THRESHOLD_SECONDS
    · rw [if_pos hage]
      exact ⟨_, rfl, rfl, fun _ => ⟨rfl, rfl⟩⟩
    · rw [if_neg hage]
      exact ⟨_, rfl, rfl, fun hcon => absurd hcon hage⟩

/-!  ## Dependency graph — shared structure  -/

/-- A dependency-graph node: adjacency lists in both directions. -/
structure GNode where
  dependsOn : List String := []
  requiredBy : List String := []
deriving DecidableEq

/-- The dependency graph object, keyed by endpoint id. -/
abbrev Graph := JsObj GNode

/-!  ## public/app.js — getBlastRadius, and getImpactedServices from
lib/health-config.js: BFS over the `requiredBy` relation  -/

/-- The `requiredBy` successors of a node: `graph[current].requiredBy`,
or nothing when the id has no node (`if (!node) continue`). -/
def succs (g : Graph) (id : String) : List String :=
  match List.lookup id g with
  | some n => n.requiredBy
  | none => []

/-- One `requiredBy` edge. -/
def ReqStep (g : Graph) (a b : String) : Prop := b ∈ succs g a

/-- Reachability along `requiredBy`, reflexively and transitively. -/
def Reaches (g : Graph) (a b : String) : Prop := Relation.ReflTransGen (ReqStep g) a b

/-- The loop of `getImpactedServices`, with explicit fuel standing in
for the unbounded `while (queue.length > 0)`: pop `current`, and for
each unvisited `requiredBy` dependent, mark it visited, record it and
enqueue it. `none` means the fuel ran out. -/
def bfsStepList (st : List String × List String × List String) (dep : String) :
    List String × List String × List String :=
  if dep ∈ st.1 then st
  else (dep :: st.1, st.2.1 ++ [dep], st.2.2 ++ [dep])

def impactedAux (g : Graph) :
    Nat → List String → List String → List String → Option (List String)
  | _, _, [], impacted => some impacted
  | 0, _, _ :: _, _ => none
  | fuel + 1, visited, current :: rest, impacted =>
    let st := (succs g current).foldl bfsStepList (visited, rest, impacted)
    impactedAux g fuel st.1 st.2.1 st.2.2

/-- `getImpactedServices(downId)` on a given graph: BFS from `downId`
collecting every transitively impacted id. -/
def getImpactedServices (g : Graph) (downId : String) (fuel : Nat) : Option (List String) :=
  impactedAux g fuel [downId] [downId] []

/-- The loop of `getBlastRadius(endpointId, graph)` from `app.js`: the
same BFS, counting instead of collecting. -/
def bfsStepCount (st : List String × List String × Nat) (dep : String) :
    List String × List String × Nat :=
  if dep ∈ st.1 then st
  else (dep :: st.1, st.2.1 ++ [dep], st.2.2 + 1)

def blastAux (g : Graph) :
    Nat → List String → List String → Nat → Option Nat
  | _, _, [], count => some count
  | 0, _, _ :: _, _ => none
  | fuel + 1, visited, current :: rest, count =>
    let st := (succs g current).foldl bfsStepCount (visited, rest, count)
    blastAux g fuel st.1 st.2.1 st.2.2

/-- `getBlastRadius(endpointId, graph)`. -/
def getBlastRadius (g : Graph) (endpointId : String) (fuel : Nat) : Option Nat :=
  blastAux g fuel [endpointId] [endpointId] 0

/-- Every id that can ever be enqueued: the union of all `requiredBy`
lists, deduplicated. -/
def gUniverse (g : Graph) : List String :=
  ((g.map (fun p => p.2.requiredBy)).join).dedup

theorem succs_subset_gUniverse (g : Graph) (id : String) :
    ∀ y ∈ succs g id, y ∈ gUniverse g := by
  intro y hy
  rw [succs] at hy
  cases hl : List.lookup id g with
  | none => rw [hl] at hy; cases hy
  | some n =>
    rw [hl] at hy
    rw [gUniverse, List.mem_dedup, List.mem_join]
    refine ⟨n.requiredBy, ?_, hy⟩
    have hmem : (id, n) ∈ g := by
      obtain ⟨l₁, l₂, hsplit, _⟩ := List.lookup_eq_some_iff.mp hl
      rw [hsplit]
      simp
    exact List.mem_map.mpr ⟨(id, n), hmem, rfl⟩

/-- BFS termination measure: unvisited candidate ids plus queue length. -/
def bfsMeasure (g : Graph) (visited queue : List String) : Nat :=
  ((gUniverse g).toFinset \ visited.toFinset).card + queue.length

theorem bfs_foldl_measure (g : Graph) (deps : List String)
    (hdeps : ∀ d ∈ deps, d ∈ gUniverse g) :
    ∀ visited queue acc,
      bfsMeasure g (deps.foldl bfsStepList (visited, queue, acc)).1
          (deps.foldl bfsStepList (visited, queue, acc)).2.1
        ≤ bfsMeasure g visited queue := by
  induction deps with
  | nil => intro visited queue acc; exact le_rfl
  | cons d ds ih =>
    intro visited queue acc
    have hdds : ∀ x ∈ ds, x ∈ gUniverse g := fun x hx => hdeps x (List.mem_cons_of_mem _ hx)
    simp only [List.foldl_cons, bfsStepList]
    by_cases hd : d ∈ visited
    · rw [if_pos hd]
      exact ih hdds visited queue acc
    · rw [if_neg hd]
      refine le_trans (ih hdds _ _ _) ?_
      have hmemd : d ∈ (gUniverse g).toFinset \ visited.toFinset := by
        rw [Finset.mem_sdiff, List.mem_toFinset, List.mem_toFinset]
        exact ⟨hdeps d (List.mem_cons_self _ _), hd⟩
      have hpos : 0 < ((gUniverse g).toFinset \ visited.toFinset).card :=
        Finset.card_pos.mpr ⟨d, hmemd⟩
      have hcard : ((gUniverse g).toFinset \ (d :: visited).toFinset).card
          = ((gUniverse g).toFinset \ visited.toFinset).card - 1 := by
        rw [List.toFinset_cons, Finset.sdiff_insert, Finset.card_erase_of_mem hmemd]
      simp only [bfsMeasure, hcard, List.length_append, List.length_cons, List.length_nil]
      omega

/-- The BFS loop invariant tying the visited set, queue and output list
to reachability from the start id. -/
structure BfsInv (g : Graph) (s : String) (visited queue acc : List String) : Prop where
  queue_sub : ∀ x ∈ queue, x ∈ visited
  queue_nodup : queue.Nodup
  visited_nodup : visited.Nodup
  start_mem : s ∈ visited
  reach : ∀ x ∈ visited, Reaches g s x
  acc_iff : ∀ x, x ∈ acc ↔ x ∈ visited ∧ x ≠ s
  acc_nodup : acc.Nodup
  closed : ∀ x ∈ visited, x ∉ queue → ∀ y ∈ succs g x, y ∈ visited

theorem bfs_foldl_facts (g : Graph) (s : String) (deps : List String)
    (hreach : ∀ d ∈ deps, Reaches g s d) :
    ∀ visited queue acc,
      (∀ x ∈ queue, x ∈ visited) → queue.Nodup → visited.Nodup → s ∈ visited →
      (∀ x ∈ visited, Reaches g s x) →
      (∀ x, x ∈ acc ↔ x ∈ visited ∧ x ≠ s) → acc.Nodup →
      ((∀ x ∈ (deps.foldl bfsStepList (visited, queue, acc)).2.1,
          x ∈ (deps.foldl bfsStepList (visited, queue, acc)).1)
       ∧ (deps.foldl bfsStepList (visited, queue, acc)).2.1.Nodup
       ∧ (deps.foldl bfsStepList (visited, queue, acc)).1.Nodup
       ∧ s ∈ (deps.foldl bfsStepList (visited, queue, acc)).1
       ∧ (∀ x ∈ (deps.foldl bfsStepList (visited, queue, acc)).1, Reaches g s x)
       ∧ (∀ x, x ∈ (deps.foldl bfsStepList (visited, queue, acc)).2.2
            ↔ x ∈ (deps.foldl bfsStepList (visited, queue, acc)).1 ∧ x ≠ s)
       ∧ (deps.foldl bfsStepList (visited, queue, acc)).2.2.Nodup
       ∧ (∀ d ∈ deps, d ∈ (deps.foldl bfsStepList (visited, queue, acc)).1)
       ∧ (∀ x ∈ visited, x ∈ (deps.foldl bfsStepList (visited, queue, acc)).1)
       ∧ (∀ x ∈ queue, x ∈ (deps.foldl bfsStepList (visited, queue, acc)).2.1)
       ∧ (∀ x ∈ (deps.foldl bfsStepList (visited, queue, acc)).1,
            x ∈ visited ∨ x ∈ (deps.foldl bfsStepList (visited, queue, acc)).2.1)) := by
  induction deps with
  | nil =>
    intro visited queue acc hqs hqn hvn hsm hre hai han
    exact ⟨hqs, hqn, hvn, hsm, hre, hai, han, by simp, fun x hx => hx, fun x hx => hx,
      fun x hx => Or.inl hx⟩
  | cons d ds ih =>
    intro visited queue acc hqs hqn hvn hsm hre hai han
    have hrds : ∀ x ∈ ds, Reaches g s x := fun x hx => hreach x (List.mem_cons_of_mem _ hx)
    simp only [List.foldl_cons, bfsStepList]
    by_cases hd : d ∈ visited
    · rw [if_pos hd]
      have hrec := ih hrds visited queue acc hqs hqn hvn hsm hre hai han
      obtain ⟨h1, h2, h3, h4, h5, h6, h7, h8, h9, h10, h11⟩ := hrec
      exact ⟨h1, h2, h3, h4, h5, h6, h7,
        fun x hx => (List.mem_cons.mp hx).elim (fun hxd => hxd ▸ h9 d hd) (h8 x),
        h9, h10, h11⟩
    · rw [if_neg hd]
      have hds : d ≠ s := fun hcon => hd (hcon ▸ hsm)
      have hqs2 : ∀ x ∈ queue ++ [d], x ∈ d :: visited := by
        intro x hx
        rcases List.mem_append.mp hx with hx | hx
        · exact List.mem_cons_of_mem _ (hqs x hx)
        · simp only [List.mem_singleton] at hx
          exact hx ▸ List.mem_cons_self _ _
      have hqn2 : (queue ++ [d]).Nodup := by
        rw [List.nodup_append]
        refine ⟨hqn, List.nodup_singleton d, ?_⟩
        intro x hx hxd
        simp only [List.mem_singleton] at hxd
        exact hd (hxd ▸ hqs x hx)
      have hvn2 : (d :: visited).Nodup := List.nodup_cons.mpr ⟨hd, hvn⟩
      have hsm2 : s ∈ d :: visited := List.mem_cons_of_mem _ hsm
      have hre2 : ∀ x ∈ d :: visited, Reaches g s x := by
        intro x hx
        rcases List.mem_cons.mp hx with hx | hx
        · exact hx ▸ hreach d (List.mem_cons_self _ _)
        · exact hre x hx
      have hai2 : ∀ x, x ∈ acc ++ [d] ↔ x ∈ d :: visited ∧ x ≠ s := by
        intro x
        rw [List.mem_append, List.mem_singleton, hai x, List.mem_cons]
        constructor
        · rintro (⟨hxv, hxs⟩ | rfl)
          · exact ⟨Or.inr hxv, hxs⟩
          · exact ⟨Or.inl rfl, hds⟩
        · rintro ⟨rfl | hxv, hxs⟩
          · exact Or.inr rfl
          · exact Or.inl ⟨hxv, hxs⟩
      have han2 : (acc ++ [d]).Nodup := by
        rw [List.nodup_append]
        refine ⟨han, List.nodup_singleton d, ?_⟩
        intro x hx hxd
        simp only [List.mem_singleton] at hxd
        exact hd (hxd ▸ ((hai x).mp hx).1)
      have hrec := ih hrds (d :: visited) (queue ++ [d]) (acc ++ [d])
        hqs2 hqn2 hvn2 hsm2 hre2 hai2 han2
      obtain ⟨h1, h2, h3, h4, h5, h6, h7, h8, h9, h10, h11⟩ := hrec
      refine ⟨h1, h2, h3, h4, h5, h6, h7, ?_, ?_, ?_, ?_⟩
      · intro x hx
        rcases List.mem_cons.mp hx with rfl | hx
        · exact h9 x (List.mem_cons_self _ _)
        · exact h8 x hx
      · intro x hx
        exact h9 x (List.mem_cons_of_mem _ hx)
      · intro x hx
        exact h10 x (List.mem_append_left _ hx)
      · intro x hx
        rcases h11 x hx with hx2 | hx2
        · rcases List.mem_cons.mp hx2 with rfl | hx3
          · exact Or.inr (h10 x (List.mem_append_right _ (List.mem_singleton_self _)))
          · exact Or.inl hx3
        · exact Or.inr hx2

theorem impactedAux_isSome (g : Graph) :
    ∀ (fuel : Nat) (visited queue acc : List String),
      bfsMeasure g visited queue ≤ fuel →
      (impactedAux g fuel visited queue acc).isSome := by
  intro fuel
  induction fuel with
  | zero =>
    intro visited queue acc hm
    cases queue with
    | nil => simp [impactedAux]
    | cons c rest =>
      exfalso
      simp only [bfsMeasure, List.length_cons] at hm
      omega
  | succ n ih =>
    intro visited queue acc hm
    cases queue with
    | nil => simp [impactedAux]
    | cons c rest =>
      simp only [impactedAux]
      apply ih
      have h1 := bfs_foldl_measure g (succs g c) (succs_subset_gUniverse g c) visited rest acc
      simp only [bfsMeasure, List.length_cons] at hm h1 ⊢
      omega

theorem impactedAux_mono (g : Graph) :
    ∀ (fuel fuel' : Nat) (visited queue acc l : List String), fuel ≤ fuel' →
      impactedAux g fuel visited queue acc = some l →
      impactedAux g fuel' visited queue acc = some l := by
  intro fuel
  induction fuel with
  | zero =>
    intro fuel' visited queue acc l _ h
    cases queue with
    | nil =>
      cases fuel' <;> simpa [impactedAux] using h
    | cons c rest => simp [impactedAux] at h
  | succ n ih =>
    intro fuel' visited queue acc l hle h
    cases queue with
    | nil =>
      cases fuel' <;> simpa [impactedAux] using h
    | cons c rest =>
      obtain ⟨m, rfl⟩ : ∃ m, fuel' = m + 1 := ⟨fuel' - 1, by omega⟩
      simp only [impactedAux] at h ⊢
      exact ih m _ _ _ l (by omega) h

theorem reaches_mem_of_closed (g : Graph) (s : String) (visited : List String)
    (hs : s ∈ visited)
    (hclosed : ∀ x ∈ visited, ∀ y ∈ succs g x, y ∈ visited) :
    ∀ x, Reaches g s x → x ∈ visited := by
  intro x hx
  induction hx with
  | refl => exact hs
  | tail _ hbc ihr => exact hclosed _ ihr _ hbc

theorem bfsInv_empty_queue (g : Graph) (s : String) (visited acc : List String)
    (hinv : BfsInv g s visited [] acc) :
    acc.Nodup ∧ ∀ x, x ∈ acc ↔ Reaches g s x ∧ x ≠ s := by
  refine ⟨hinv.acc_nodup, fun x => ?_⟩
  rw [hinv.acc_iff x]
  constructor
  · rintro ⟨hxv, hxs⟩
    exact ⟨hinv.reach x hxv, hxs⟩
  · rintro ⟨hr, hxs⟩
    exact ⟨reaches_mem_of_closed g s visited hinv.start_mem
      (fun x hxv => hinv.closed x hxv (List.not_mem_nil x)) x hr, hxs⟩

theorem impactedAux_correct (g : Graph) (s : String) :
    ∀ (fuel : Nat) (visited queue acc l : List String),
      BfsInv g s visited queue acc →
      impactedAux g fuel visited queue acc = some l →
      l.Nodup ∧ ∀ x, x ∈ l ↔ Reaches g s x ∧ x ≠ s := by
  intro fuel
  induction fuel with
  | zero =>
    intro visited queue acc l hinv h
    cases queue with
    | cons c rest => simp [impactedAux] at h
    | nil =>
      simp only [impactedAux, Option.some.injEq] at h
      exact h ▸ bfsInv_empty_queue g s visited acc hinv
  | succ n ih =>
    intro visited queue acc l hinv hrun
    cases queue with
    | nil =>
      simp only [impactedAux, Option.some.injEq] at hrun
      exact hrun ▸ bfsInv_empty_queue g s visited acc hinv
    | cons c rest =>
      simp only [impactedAux] at hrun
      have hcv : c ∈ visited := hinv.queue_sub c (List.mem_cons_self _ _)
      have hrc : Reaches g s c := hinv.reach c hcv
      have hdr : ∀ d ∈ succs g c, Reaches g s d := fun d hd =>
        Relation.ReflTransGen.tail hrc hd
      have hqrest : ∀ x ∈ rest, x ∈ visited := fun x hx =>
        hinv.queue_sub x (List.mem_cons_of_mem _ hx)
      have hqnr : rest.Nodup := (List.nodup_cons.mp hinv.queue_nodup).2
      have hfacts := bfs_foldl_facts g s (succs g c) hdr visited rest acc
        hqrest hqnr hinv.visited_nodup hinv.start_mem hinv.reach hinv.acc_iff hinv.acc_nodup
      obtain ⟨h1, h2, h3, h4, h5, h6, h7, h8, h9, h10, h11⟩ := hfacts
      have hclosed2 : ∀ x ∈ ((succs g c).foldl bfsStepList (visited, rest, acc)).1,
          x ∉ ((succs g c).foldl bfsStepList (visited, rest, acc)).2.1 →
          ∀ y ∈ succs g x, y ∈ ((succs g c).foldl bfsStepList (visited, rest, acc)).1 := by
        intro x hx hxq y hy
        rcases h11 x hx with hxv | hxq2
        · by_cases hxc : x = c
          · exact h8 y (hxc ▸ hy)
          · have hxnq : x ∉ (c :: rest) := by
              intro hcon
              rcases List.mem_cons.mp hcon with rfl | hcon2
              · exact hxc rfl
              · exact hxq (h10 x hcon2)
            exact h9 y (hinv.closed x hxv hxnq y hy)
        · exact absurd hxq2 hxq
      exact ih _ _ _ l ⟨h1, h2, h3, h4, h5, h6, h7, hclosed2⟩ hrun

theorem blastAux_eq_impactedAux (g : Graph) :
    ∀ (fuel : Nat) (visited queue acc : List String),
      blastAux g fuel visited queue acc.length
        = (impactedAux g fuel visited queue acc).map (·.length) := by
  have hfold : ∀ (deps : List String) (v q a : List String),
      (deps.foldl bfsStepCount (v, q, a.length)).1
          = (deps.foldl bfsStepList (v, q, a)).1
      ∧ (deps.foldl bfsStepCount (v, q, a.length)).2.1
          = (deps.foldl bfsStepList (v, q, a)).2.1
      ∧ (deps.foldl bfsStepCount (v, q, a.length)).2.2
          = (deps.foldl bfsStepList (v, q, a)).2.2.length := by
    intro deps
    induction deps with
    | nil => intro v q a; exact ⟨rfl, rfl, rfl⟩
    | cons d ds ihd =>
      intro v q a
      simp only [List.foldl_cons, bfsStepCount, bfsStepList]
      by_cases hd : d ∈ v
      · rw [if_pos hd, if_pos hd]
        exact ihd v q a
      · rw [if_neg hd, if_neg hd]
        have hlen : a.length + 1 = (a ++ [d]).length := by
          simp
        rw [hlen]
        exact ihd (d :: v) (q ++ [d]) (a ++ [d])
  intro fuel
  induction fuel with
  | zero =>
    intro visited queue acc
    cases queue <;> simp [blastAux, impactedAux]
  | succ n ih =>
    intro visited queue acc
    cases queue with
    | nil => simp [blastAux, impactedAux]
    | cons c rest =>
      simp only [blastAux, impactedAux]
      obtain ⟨e1, e2, e3⟩ := hfold (succs g c) visited rest acc
      rw [e1, e2, e3, ih]

/-- Claim C5: for every graph (cycles included) and start id, the
blast-radius BFS terminates — any fuel beyond the universe of candidate
ids gives the same defined answer — and `getImpactedServices` returns
exactly the set of distinct ids transitively reachable from the start
over `requiredBy`, excluding the start itself, each exactly once, while
`getBlastRadius` returns its size. -/
theorem blast_radius_spec (g : Graph) (s : String) :
    ∃ l : List String,
      l.Nodup
      ∧ (∀ x, x ∈ l ↔ Reaches g s x ∧ x ≠ s)
      ∧ ∀ fuel : Nat, (gUniverse g).length + 1 ≤ fuel →
          getImpactedServices g s fuel = some l
          ∧ getBlastRadius g s fuel = some l.length := by
  have hinv : BfsInv g s [s] [s] [] := by
    refine ⟨fun x hx => hx, List.nodup_singleton s, List.nodup_singleton s,
      List.mem_singleton_self s, ?_, fun x => by simp, List.nodup_nil, ?_⟩
    · intro x hx
      rw [List.mem_singleton] at hx
      exact hx ▸ Relation.ReflTransGen.refl
    · intro x hxv hxq
      rw [List.mem_singleton] at hxv
      exact absurd (hxv ▸ List.mem_singleton_self s) hxq
  have hbound : bfsMeasure g [s] [s] ≤ (gUniverse g).length + 1 := by
    rw [bfsMeasure]
    have h1 : ((gUniverse g).toFinset \ [s].toFinset).card ≤ (gUniverse g).toFinset.card :=
      Finset.card_le_card Finset.sdiff_subset
    have h2 : (gUniverse g).toFinset.card ≤ (gUniverse g).length :=
      List.toFinset_card_le _
    simp only [List.length_singleton]
    omega
  have hsome := impactedAux_isSome g ((gUniverse g).length + 1) [s] [s] [] hbound
  obtain ⟨l, hl⟩ := Option.isSome_iff_exists.mp hsome
  have hcorr := impactedAux_correct g s ((gUniverse g).length + 1) [s] [s] [] l hinv hl
  refine ⟨l, hcorr.1, hcorr.2, ?_⟩
  intro fuel hfuel
  have himp : impactedAux g fuel [s] [s] [] = some l :=
    impactedAux_mono g ((gUniverse g).length + 1) fuel [s] [s] [] l hfuel hl
  refine ⟨himp, ?_⟩
  have hb2 : blastAux g fuel [s] [s] ([] : List String).length
      = (impactedAux g fuel [s] [s] []).map (·.length) :=
    blastAux_eq_impactedAux g fuel [s] [s] []
  rw [himp] at hb2
  exact hb2

/-- The two-node `requiredBy` cycle from the specification's example. -/
def cycleGraph : Graph := [("A", ⟨[], ["B"]⟩), ("B", ⟨[], ["A"]⟩)]

/-- Witness for C5: on the graph with A requiredBy B and B requiredBy A,
the traversal from A terminates with the single impacted id B and a
blast radius of 1. -/
theorem blast_radius_spec_witness :
    ((gUniverse cycleGraph).length + 1 ≤ 3)
    ∧ getImpactedServices cycleGraph "A" 3 = some ["B"]
    ∧ getBlastRadius cycleGraph "A" 3 = some 1 := by
  obtain ⟨l, hnd, hiff, hf⟩ := blast_radius_spec cycleGraph "A"
  obtain ⟨himp3, hbl3⟩ := hf 3 (by decide)
  have hl : l = ["B"] := by
    have he : some l = some ["B"] := by
      rw [← himp3]
      decide
    simpa using he
  rw [hl] at himp3 hbl3
  exact ⟨by decide, himp3, hbl3⟩

/-!  ## lib/health-config.js — getDependencyGraph  -/

/-- `if (!graph[id]) graph[id] = { dependsOn: [], requiredBy: [] }`. -/
def gEnsure (g : Graph) (id : String) : Graph :=
  if (List.lookup id g).isSome then g else g ++ [(id, ({} : GNode))]

/-- `graph[id].dependsOn.push(dep)`: update the node stored under `id`
in place (a no-op on an absent node, which the source never does: every
push is preceded by node creation). -/
def gPushDep (id dep : String) : Graph → Graph
  | [] => []
  | (k, n) :: rest =>
    if k = id then (k, ⟨n.dependsOn ++ [dep], n.requiredBy⟩) :: gPushDep id dep rest
    else (k, n) :: gPushDep id dep rest

/-- `graph[id].requiredBy.push(req)` under the same convention. -/
def gPushReq (id req : String) : Graph → Graph
  | [] => []
  | (k, n) :: rest =>
    if k = id then (k, ⟨n.dependsOn, n.requiredBy ++ [req]⟩) :: gPushReq id req rest
    else (k, n) :: gPushReq id req rest

/-- `graph[id]` when the node is known to exist. -/
def gNode (g : Graph) (id : String) : GNode := (List.lookup id g).getD ({} : GNode)

/-- One `dependsOn` edge of the second build loop:
`graph[ep2.id].dependsOn.push(depId)`, allocate `depId`'s node when
missing, `graph[depId].requiredBy.push(ep2.id)`. -/
def addDependsOnEdge (aid depId : String) (g : Graph) : Graph :=
  gPushReq depId aid (gEnsure (gPushDep aid depId g) depId)

/-- One `impacts` edge of the third build loop: allocate both nodes when
missing and add `impId` to `requiredBy` of `ep3.id` and `ep3.id` to
`dependsOn` of `impId`, each only when not already present. -/
def addImpactsEdge (aid impId : String) (g : Graph) : Graph :=
  let g := gEnsure g aid
  let g := if impId ∈ (gNode g aid).requiredBy then g else gPushReq aid impId g
  let g := gEnsure g impId
  if aid ∈ (gNode g impId).dependsOn then g else gPushDep impId aid g

/-- `getDependencyGraph()` over an explicit registry list: allocate a
node per endpoint, add `dependsOn` edges with their `requiredBy`
mirrors, then add the transpose of the `impacts` edges, skipping any
edge that is already present. -/
def getDependencyGraph (endpoints : List Endpoint) : Graph :=
  let g1 := endpoints.foldl (fun g ep => gEnsure g ep.id) []
  let g2 := endpoints.foldl (fun g ep2 =>
    ep2.dependsOn.foldl (fun g depId => addDependsOnEdge ep2.id depId g) g) g1
  endpoints.foldl (fun g ep3 =>
    ep3.impacts.foldl (fun g impId => addImpactsEdge ep3.id impId g) g) g2

theorem lookup_concat {β : Type} (l : List (String × β)) (id j : String) (v : β) :
    List.lookup j (l ++ [(id, v)])
      = match List.lookup j l with
        | some n => some n
        | none => if j = id then some v else none := by
  induction l with
  | nil =>
    simp only [List.nil_append, List.lookup, List.lookup_nil]
    by_cases h : j = id
    · have hb : (j == id) = true := beq_iff_eq.mpr h
      simp [hb, h]
    · have hb : (j == id) = false := beq_eq_false_iff_ne.mpr h
      simp [hb, h]
  | cons p rest ih =>
    obtain ⟨k, w⟩ := p
    simp only [List.cons_append, List.lookup]
    cases hjk : (j == k) with
    | true => rfl
    | false => exact ih

theorem lookup_gEnsure_self (g : Graph) (id : String) :
    (List.lookup id (gEnsure g id)).isSome := by
  rw [gEnsure]
  by_cases h : (List.lookup id g).isSome
  · rw [if_pos h]; exact h
  · rw [if_neg h, lookup_concat]
    cases hl : List.lookup id g with
    | some n => rw [hl] at h; simp at h
    | none => simp

theorem lookup_gEnsure_of_isSome (g : Graph) (id j : String)
    (h : (List.lookup j g).isSome) :
    List.lookup j (gEnsure g id) = List.lookup j g := by
  rw [gEnsure]
  by_cases hid : (List.lookup id g).isSome
  · rw [if_pos hid]
  · rw [if_neg hid, lookup_concat]
    cases hl : List.lookup j g with
    | some n => rfl
    | none => rw [hl] at h; simp at h

theorem lookup_gEnsure_fresh (g : Graph) (id j : String)
    (h : List.lookup j g = none) :
    List.lookup j (gEnsure g id) = if j = id ∧ ¬ (List.lookup id g).isSome
      then some {} else none := by
  rw [gEnsure]
  by_cases hid : (List.lookup id g).isSome
  · rw [if_pos hid, h]
    simp [hid]
  · rw [if_neg hid, lookup_concat, h]
    by_cases hj : j = id
    · simp [hj, hid]
    · simp [hj]

theorem lookup_gPushDep_self (g : Graph) (id dep : String) :
    List.lookup id (gPushDep id dep g)
      = (List.lookup id g).map (fun n => ⟨n.dependsOn ++ [dep], n.requiredBy⟩) := by
  induction g with
  | nil => rfl
  | cons p rest ih =>
    obtain ⟨k, w⟩ := p
    by_cases hk : k = id
    · subst hk
      have hb : (k == k) = true := beq_self_eq_true k
      rw [gPushDep, if_pos rfl]
      simp only [List.lookup, hb]
      rfl
    · have hb : (id == k) = false := beq_eq_false_iff_ne.mpr (fun hcon => hk hcon.symm)
      rw [gPushDep, if_neg hk]
      simp only [List.lookup, hb]
      exact ih

theorem lookup_gPushDep_ne (g : Graph) (id dep j : String) (hne : j ≠ id) :
    List.lookup j (gPushDep id dep g) = List.lookup j g := by
  induction g with
  | nil => rfl
  | cons p rest ih =>
    obtain ⟨k, w⟩ := p
    by_cases hk : k = id
    · subst hk
      have hb : (j == k) = false := beq_eq_false_iff_ne.mpr hne
      rw [gPushDep, if_pos rfl]
      simp only [List.lookup, hb]
      exact ih
    · rw [gPushDep, if_neg hk]
      simp only [List.lookup]
      cases hjk : (j == k) with
      | true => rfl
      | false => exact ih

theorem lookup_gPushReq_self (g : Graph) (id req : String) :
    List.lookup id (gPushReq id req g)
      = (List.lookup id g).map (fun n => ⟨n.dependsOn, n.requiredBy ++ [req]⟩) := by
  induction g with
  | nil => rfl
  | cons p rest ih =>
    obtain ⟨k, w⟩ := p
    by_cases hk : k = id
    · subst hk
      have hb : (k == k) = true := beq_self_eq_true k
      rw [gPushReq, if_pos rfl]
      simp only [List.lookup, hb]
      rfl
    · have hb : (id == k) = false := beq_eq_false_iff_ne.mpr (fun hcon => hk hcon.symm)
      rw [gPushReq, if_neg hk]
      simp only [List.lookup, hb]
      exact ih

theorem lookup_gPushReq_ne (g : Graph) (id req j : String) (hne : j ≠ id) :
    List.lookup j (gPushReq id req g) = List.lookup j g := by
  induction g with
  | nil => rfl
  | cons p rest ih =>
    obtain ⟨k, w⟩ := p
    by_cases hk : k = id
    · subst hk
      have hb : (j == k) = false := beq_eq_false_iff_ne.mpr hne
      rw [gPushReq, if_pos rfl]
      simp only [List.lookup, hb]
      exact ih
    · rw [gPushReq, if_neg hk]
      simp only [List.lookup]
      cases hjk : (j == k) with
      | true => rfl
      | false => exact ih

/-- Graph growth order: every stored node stays stored and its
adjacency lists only gain members. -/
def GraphLE (g g' : Graph) : Prop :=
  ∀ j n, List.lookup j g = some n →
    ∃ n', List.lookup j g' = some n'
      ∧ (∀ x ∈ n.dependsOn, x ∈ n'.dependsOn)
      ∧ (∀ x ∈ n.requiredBy, x ∈ n'.requiredBy)

theorem graphLE_refl (g : Graph) : GraphLE g g :=
  fun _ n h => ⟨n, h, fun _ hx => hx, fun _ hx => hx⟩

theorem graphLE_trans {g₁ g₂ g₃ : Graph} (h12 : GraphLE g₁ g₂) (h23 : GraphLE g₂ g₃) :
    GraphLE g₁ g₃ := by
  intro j n h
  obtain ⟨n₂, h₂, hd₂, hr₂⟩ := h12 j n h
  obtain ⟨n₃, h₃, hd₃, hr₃⟩ := h23 j n₂ h₂
  exact ⟨n₃, h₃, fun x hx => hd₃ x (hd₂ x hx), fun x hx => hr₃ x (hr₂ x hx)⟩

theorem graphLE_isSome {g g' : Graph} (h : GraphLE g g') (j : String)
    (hj : (List.lookup j g).isSome) : (List.lookup j g').isSome := by
  cases hl : List.lookup j g with
  | none => rw [hl] at hj; simp at hj
  | some n =>
    obtain ⟨n', h', _, _⟩ := h j n hl
    rw [h']
    rfl

theorem graphLE_gEnsure (g : Graph) (id : String) : GraphLE g (gEnsure g id) := by
  intro j n h
  have hj : (List.lookup j g).isSome := by rw [h]; rfl
  exact ⟨n, by rw [lookup_gEnsure_of_isSome g id j hj, h], fun _ hx => hx, fun _ hx => hx⟩

theorem graphLE_gPushDep (g : Graph) (id dep : String) : GraphLE g (gPushDep id dep g) := by
  intro j n h
  by_cases hj : j = id
  · subst hj
    refine ⟨⟨n.dependsOn ++ [dep], n.requiredBy⟩, ?_, ?_, fun x hx => hx⟩
    · rw [lookup_gPushDep_self, h]
      rfl
    · intro x hx
      exact List.mem_append_left _ hx
  · exact ⟨n, by rw [lookup_gPushDep_ne g id dep j hj, h], fun _ hx => hx, fun _ hx => hx⟩

theorem graphLE_gPushReq (g : Graph) (id req : String) : GraphLE g (gPushReq id req g) := by
  intro j n h
  by_cases hj : j = id
  · subst hj
    refine ⟨⟨n.dependsOn, n.requiredBy ++ [req]⟩, ?_, fun x hx => hx, ?_⟩
    · rw [lookup_gPushReq_self, h]
      rfl
    · intro x hx
      exact List.mem_append_left _ hx
  · exact ⟨n, by rw [lookup_gPushReq_ne g id req j hj, h], fun _ hx => hx, fun _ hx => hx⟩

theorem graphLE_addDependsOnEdge (aid depId : String) (g : Graph) :
    GraphLE g (addDependsOnEdge aid depId g) := by
  rw [addDependsOnEdge]
  exact graphLE_trans (graphLE_gPushDep g aid depId)
    (graphLE_trans (graphLE_gEnsure _ depId) (graphLE_gPushReq _ depId aid))

theorem graphLE_addImpactsEdge (aid impId : String) (g : Graph) :
    GraphLE g (addImpactsEdge aid impId g) := by
  rw [addImpactsEdge]
  refine graphLE_trans (graphLE_gEnsure g aid) ?_
  refine @graphLE_trans _ (if impId ∈ (gNode (gEnsure g aid) aid).requiredBy
    then gEnsure g aid else gPushReq aid impId (gEnsure g aid)) _ ?_ ?_
  · by_cases hg : impId ∈ (gNode (gEnsure g aid) aid).requiredBy
    · rw [if_pos hg]
      exact graphLE_refl _
    · rw [if_neg hg]
      exact graphLE_gPushReq _ aid impId
  · refine graphLE_trans (graphLE_gEnsure _ impId) ?_
    by_cases hg : aid ∈ (gNode (gEnsure (if impId ∈ (gNode (gEnsure g aid) aid).requiredBy
        then gEnsure g aid else gPushReq aid impId (gEnsure g aid)) impId) impId).dependsOn
    · rw [if_pos hg]
      exact graphLE_refl _
    · rw [if_neg hg]
      exact graphLE_gPushDep _ impId aid

theorem foldl_graphLE {α : Type} (f : Graph → α → Graph)
    (hf : ∀ g a, GraphLE g (f g a)) :
    ∀ (l : List α) (g : Graph), GraphLE g (l.foldl f g) := by
  intro l
  induction l with
  | nil => intro g; exact graphLE_refl g
  | cons x xs ih =>
    intro g
    exact graphLE_trans (hf g x) (ih (f g x))

/-- Establishing a per-element property along a left fold whose steps
only grow the graph: each element's property is established at its own
step and preserved afterwards. -/
theorem foldl_establish {α : Type} (f : Graph → α → Graph) (P : α → Graph → Prop)
    (Q : Graph → Prop)
    (hmono : ∀ g a, GraphLE g (f g a))
    (hPmono : ∀ a g g', GraphLE g g' → P a g → P a g')
    (hQmono : ∀ g g', GraphLE g g' → Q g → Q g') :
    ∀ (l : List α) (g : Graph), Q g → (∀ g₀, Q g₀ → ∀ a ∈ l, P a (f g₀ a)) →
      ∀ a ∈ l, P a (l.foldl f g) := by
  intro l
  induction l with
  | nil => intro g _ _ a ha; cases ha
  | cons x xs ih =>
    intro g hQ hstep a ha
    simp only [List.foldl_cons]
    rcases List.mem_cons.mp ha with rfl | ha
    · exact hPmono a (f g a) _ (foldl_graphLE f hmono xs (f g a))
        (hstep g hQ a (List.mem_cons_self _ _))
    · exact ih (f g x) (hQmono g (f g x) (hmono g x) hQ)
        (fun g₀ hQ₀ b hb => hstep g₀ hQ₀ b (List.mem_cons_of_mem _ hb)) a ha

theorem gNode_eq_of_lookup {g : Graph} {id : String} {n : GNode}
    (h : List.lookup id g = some n) : gNode g id = n := by
  rw [gNode, h]
  rfl

theorem phase1_present (endpoints : List Endpoint) :
    ∀ ep ∈ endpoints,
      (List.lookup ep.id (endpoints.foldl (fun g ep => gEnsure g ep.id) ([] : Graph))).isSome := by
  intro ep hep
  refine foldl_establish (fun g ep => gEnsure g ep.id)
    (fun ep g => (List.lookup ep.id g).isSome) (fun _ => True)
    (fun g a => graphLE_gEnsure g a.id)
    (fun a g g' hle hp => graphLE_isSome hle a.id hp)
    (fun _ _ _ _ => trivial)
    endpoints [] trivial ?_ ep hep
  intro g₀ _ a _
  exact lookup_gEnsure_self g₀ a.id

/-- A `dependsOn`-declared edge `aid → b`, present in both directions. -/
def depEdge (aid b : String) (g : Graph) : Prop :=
  (∃ n, List.lookup aid g = some n ∧ b ∈ n.dependsOn)
  ∧ (∃ n, List.lookup b g = some n ∧ aid ∈ n.requiredBy)

theorem depEdge_mono (aid b : String) (g g' : Graph) (hle : GraphLE g g')
    (h : depEdge aid b g) : depEdge aid b g' := by
  obtain ⟨⟨n₁, h₁, hb₁⟩, ⟨n₂, h₂, hb₂⟩⟩ := h
  obtain ⟨n₁', h₁', hd₁, _⟩ := hle aid n₁ h₁
  obtain ⟨n₂', h₂', _, hr₂⟩ := hle b n₂ h₂
  exact ⟨⟨n₁', h₁', hd₁ b hb₁⟩, ⟨n₂', h₂', hr₂ aid hb₂⟩⟩

theorem depEdge_addDependsOnEdge (aid b : String) (g : Graph)
    (haid : (List.lookup aid g).isSome) :
    depEdge aid b (addDependsOnEdge aid b g) := by
  rw [addDependsOnEdge]
  obtain ⟨n, hn⟩ := Option.isSome_iff_exists.mp haid
  have h₁ : List.lookup aid (gPushDep aid b g) = some ⟨n.dependsOn ++ [b], n.requiredBy⟩ := by
    rw [lookup_gPushDep_self, hn]
    rfl
  have h₂ : List.lookup aid (gEnsure (gPushDep aid b g) b)
      = some ⟨n.dependsOn ++ [b], n.requiredBy⟩ := by
    rw [lookup_gEnsure_of_isSome _ b aid (by rw [h₁]; rfl), h₁]
  obtain ⟨m, hm⟩ := Option.isSome_iff_exists.mp (lookup_gEnsure_self (gPushDep aid b g) b)
  have h₄ : List.lookup b (gPushReq b aid (gEnsure (gPushDep aid b g) b))
      = some ⟨m.dependsOn, m.requiredBy ++ [aid]⟩ := by
    rw [lookup_gPushReq_self, hm]
    rfl
  constructor
  · by_cases hab : aid = b
    · subst hab
      have hm2 : m = ⟨n.dependsOn ++ [aid], n.requiredBy⟩ := by
        rw [h₂] at hm
        exact (Option.some.inj hm).symm
      refine ⟨⟨m.dependsOn, m.requiredBy ++ [aid]⟩, h₄, ?_⟩
      rw [hm2]
      exact List.mem_append_right _ (List.mem_singleton_self aid)
    · refine ⟨⟨n.dependsOn ++ [b], n.requiredBy⟩, ?_,
        List.mem_append_right _ (List.mem_singleton_self b)⟩
      rw [lookup_gPushReq_ne _ b aid aid hab, h₂]
  · exact ⟨⟨m.dependsOn, m.requiredBy ++ [aid]⟩, h₄,
      List.mem_append_right _ (List.mem_singleton_self aid)⟩

theorem phase2_edges (endpoints : List Endpoint) (g : Graph)
    (hQ : ∀ ep ∈ endpoints, (List.lookup ep.id g).isSome) :
    ∀ A ∈ endpoints, ∀ b ∈ A.dependsOn,
      depEdge A.id b (endpoints.foldl (fun g ep2 =>
        ep2.dependsOn.foldl (fun g depId => addDependsOnEdge ep2.id depId g) g) g) := by
  intro A hA
  have hall := foldl_establish
    (fun g ep2 => ep2.dependsOn.foldl (fun g depId => addDependsOnEdge ep2.id depId g) g)
    (fun A g => ∀ b ∈ A.dependsOn, depEdge A.id b g)
    (fun g => ∀ ep ∈ endpoints, (List.lookup ep.id g).isSome)
    (fun g a => foldl_graphLE (fun g depId => addDependsOnEdge a.id depId g)
      (fun g d => graphLE_addDependsOnEdge a.id d g) a.dependsOn g)
    (fun a g g' hle hp b hb => depEdge_mono a.id b g g' hle (hp b hb))
    (fun g g' hle hq ep hep => graphLE_isSome hle ep.id (hq ep hep))
    endpoints g hQ ?_ A hA
  · exact hall
  · intro g₀ hQ₀ a ha
    exact foldl_establish
      (fun g depId => addDependsOnEdge a.id depId g)
      (fun b g => depEdge a.id b g)
      (fun g => (List.lookup a.id g).isSome)
      (fun g d => graphLE_addDependsOnEdge a.id d g)
      (fun b g g' hle hp => depEdge_mono a.id b g g' hle hp)
      (fun g g' hle hq => graphLE_isSome hle a.id hq)
      a.dependsOn g₀ (hQ₀ a ha)
      (fun g₁ hQ₁ b _ => depEdge_addDependsOnEdge a.id b g₁ hQ₁)

/-- An `impacts`-declared edge `aid impacts y`, stored as `y dependsOn
aid` and `aid requiredBy y`. -/
def impEdge (aid y : String) (g : Graph) : Prop :=
  (∃ n, List.lookup y g = some n ∧ aid ∈ n.dependsOn)
  ∧ (∃ n, List.lookup aid g = some n ∧ y ∈ n.requiredBy)

theorem impEdge_mono (aid y : String) (g g' : Graph) (hle : GraphLE g g')
    (h : impEdge aid y g) : impEdge aid y g' := by
  obtain ⟨⟨n₁, h₁, hb₁⟩, ⟨n₂, h₂, hb₂⟩⟩ := h
  obtain ⟨n₁', h₁', hd₁, _⟩ := hle y n₁ h₁
  obtain ⟨n₂', h₂', _, hr₂⟩ := hle aid n₂ h₂
  exact ⟨⟨n₁', h₁', hd₁ aid hb₁⟩, ⟨n₂', h₂', hr₂ y hb₂⟩⟩

theorem impEdge_addImpactsEdge (aid y : String) (g : Graph) :
    impEdge aid y (addImpactsEdge aid y g) := by
  rw [addImpactsEdge]
  obtain ⟨n₁, hn₁⟩ := Option.isSome_iff_exists.mp (lookup_gEnsure_self g aid)
  have hg₂ : ∃ n₂, List.lookup aid
      (if y ∈ (gNode (gEnsure g aid) aid).requiredBy
       then gEnsure g aid else gPushReq aid y (gEnsure g aid)) = some n₂
      ∧ y ∈ n₂.requiredBy := by
    rw [gNode_eq_of_lookup hn₁]
    by_cases hy : y ∈ n₁.requiredBy
    · rw [if_pos hy]
      exact ⟨n₁, hn₁, hy⟩
    · rw [if_neg hy]
      refine ⟨⟨n₁.dependsOn, n₁.requiredBy ++ [y]⟩, ?_,
        List.mem_append_right _ (List.mem_singleton_self y)⟩
      rw [lookup_gPushReq_self, hn₁]
      rfl
  obtain ⟨n₂, hn₂, hyn₂⟩ := hg₂
  have hg₃aid : List.lookup aid (gEnsure (if y ∈ (gNode (gEnsure g aid) aid).requiredBy
      then gEnsure g aid else gPushReq aid y (gEnsure g aid)) y) = some n₂ := by
    rw [lookup_gEnsure_of_isSome _ y aid (by rw [hn₂]; rfl), hn₂]
  obtain ⟨m, hm⟩ := Option.isSome_iff_exists.mp
    (lookup_gEnsure_self (if y ∈ (gNode (gEnsure g aid) aid).requiredBy
      then gEnsure g aid else gPushReq aid y (gEnsure g aid)) y)
  rw [gNode_eq_of_lookup hm]
  by_cases hin : aid ∈ m.dependsOn
  · rw [if_pos hin]
    exact ⟨⟨m, hm, hin⟩, ⟨n₂, hg₃aid, hyn₂⟩⟩
  · rw [if_neg hin]
    constructor
    · refine ⟨⟨m.dependsOn ++ [aid], m.requiredBy⟩, ?_,
        List.mem_append_right _ (List.mem_singleton_self aid)⟩
      rw [lookup_gPushDep_self, hm]
      rfl
    · by_cases hay : aid = y
      · subst hay
        have hmn : m = n₂ := by
          rw [hg₃aid] at hm
          exact (Option.some.inj hm).symm
        refine ⟨⟨m.dependsOn ++ [aid], m.requiredBy⟩, ?_, ?_⟩
        · rw [lookup_gPushDep_self, hm]
          rfl
        · rw [hmn]
          exact hyn₂
      · refine ⟨n₂, ?_, hyn₂⟩
        rw [lookup_gPushDep_ne _ y aid aid hay, hg₃aid]

theorem phase3_inner (a : Endpoint) (g₀ : Graph) :
    ∀ y ∈ a.impacts,
      impEdge a.id y (a.impacts.foldl (fun g impId => addImpactsEdge a.id impId g) g₀) :=
  foldl_establish (fun g impId => addImpactsEdge a.id impId g)
    (fun y g => impEdge a.id y g)
    (fun _ => True)
    (fun g d => graphLE_addImpactsEdge a.id d g)
    (fun y g g' hle hp => impEdge_mono a.id y g g' hle hp)
    (fun _ _ _ _ => trivial)
    a.impacts g₀ trivial
    (fun g₁ _ y _ => impEdge_addImpactsEdge a.id y g₁)

theorem phase3_edges (endpoints : List Endpoint) (g : Graph) :
    ∀ X ∈ endpoints, ∀ y ∈ X.impacts,
      impEdge X.id y (endpoints.foldl (fun g ep3 =>
        ep3.impacts.foldl (fun g impId => addImpactsEdge ep3.id impId g) g) g) := by
  intro X hX
  exact @foldl_establish Endpoint
    (fun g ep3 => ep3.impacts.foldl (fun g impId => addImpactsEdge ep3.id impId g) g)
    (fun X g => ∀ y ∈ X.impacts, impEdge X.id y g)
    (fun _ => True)
    (fun g a => foldl_graphLE (fun g impId => addImpactsEdge a.id impId g)
      (fun g d => graphLE_addImpactsEdge a.id d g) a.impacts g)
    (fun a g g' hle hp y hy => impEdge_mono a.id y g g' hle (hp y hy))
    (fun _ _ _ _ => trivial)
    endpoints g trivial
    (fun g₀ _ a _ => phase3_inner a g₀)
    X hX

theorem nodup_concat {α : Type} (l : List α) (a : α) (h : l.Nodup) (ha : a ∉ l) :
    (l ++ [a]).Nodup := by
  rw [List.nodup_append]
  refine ⟨h, List.nodup_singleton a, ?_⟩
  intro x hx hxa
  rw [List.mem_singleton] at hxa
  exact ha (hxa ▸ hx)

/-- Complete lookup characterization of one `dependsOn`-edge insertion,
assuming the source node exists (phase 1 guarantees it). -/
theorem addDependsOnEdge_lookup (aid b : String) (g : Graph) (n₀ : GNode)
    (h0 : List.lookup aid g = some n₀) (j : String) :
    (j = aid ∧ aid = b ∧ List.lookup j (addDependsOnEdge aid b g)
        = some ⟨n₀.dependsOn ++ [b], n₀.requiredBy ++ [aid]⟩)
    ∨ (j = aid ∧ aid ≠ b ∧ List.lookup j (addDependsOnEdge aid b g)
        = some ⟨n₀.dependsOn ++ [b], n₀.requiredBy⟩)
    ∨ (j = b ∧ aid ≠ b
        ∧ ((∃ m, List.lookup b g = some m
              ∧ List.lookup j (addDependsOnEdge aid b g)
                  = some ⟨m.dependsOn, m.requiredBy ++ [aid]⟩)
          ∨ (List.lookup b g = none
              ∧ List.lookup j (addDependsOnEdge aid b g) = some ⟨[], [aid]⟩)))
    ∨ (j ≠ aid ∧ j ≠ b
        ∧ List.lookup j (addDependsOnEdge aid b g) = List.lookup j g) := by
  have h₁ : List.lookup aid (gPushDep aid b g)
      = some ⟨n₀.dependsOn ++ [b], n₀.requiredBy⟩ := by
    rw [lookup_gPushDep_self, h0]
    rfl
  have h₂ : List.lookup aid (gEnsure (gPushDep aid b g) b)
      = some ⟨n₀.dependsOn ++ [b], n₀.requiredBy⟩ := by
    rw [lookup_gEnsure_of_isSome _ b aid (by rw [h₁]; rfl), h₁]
  by_cases hab : aid = b
  · subst hab
    by_cases hj : j = aid
    · subst hj
      refine Or.inl ⟨rfl, rfl, ?_⟩
      rw [addDependsOnEdge, lookup_gPushReq_self, h₂]
      rfl
    · refine Or.inr (Or.inr (Or.inr ⟨hj, hj, ?_⟩))
      rw [addDependsOnEdge, lookup_gPushReq_ne _ _ _ _ hj]
      cases hl : List.lookup j g with
      | some w =>
        rw [lookup_gEnsure_of_isSome _ aid j
          (by rw [lookup_gPushDep_ne g aid aid j hj, hl]; rfl)]
        rw [lookup_gPushDep_ne g aid aid j hj]
        exact hl
      | none =>
        have hl1 : List.lookup j (gPushDep aid aid g) = none := by
          rw [lookup_gPushDep_ne g aid aid j hj, hl]
        rw [lookup_gEnsure_fresh _ aid j hl1]
        simp [hj]
  · by_cases hj : j = aid
    · subst hj
      refine Or.inr (Or.inl ⟨rfl, hab, ?_⟩)
      rw [addDependsOnEdge, lookup_gPushReq_ne _ b j j hab, h₂]
    · by_cases hjb : j = b
      · subst hjb
        refine Or.inr (Or.inr (Or.inl ⟨rfl, hab, ?_⟩))
        have hmm : aid ≠ j := hab
        have hjaid : j ≠ aid := fun hcon => hj hcon
        cases hl : List.lookup j g with
        | some m =>
          refine Or.inl ⟨m, rfl, ?_⟩
          have hl1 : List.lookup j (gPushDep aid j g) = some m := by
            rw [lookup_gPushDep_ne g aid j j hjaid, hl]
          have hl2 : List.lookup j (gEnsure (gPushDep aid j g) j) = some m := by
            rw [lookup_gEnsure_of_isSome _ j j (by rw [hl1]; rfl), hl1]
          rw [addDependsOnEdge, lookup_gPushReq_self, hl2]
          rfl
        | none =>
          refine Or.inr ⟨rfl, ?_⟩
          have hl1 : List.lookup j (gPushDep aid j g) = none := by
            rw [lookup_gPushDep_ne g aid j j hjaid, hl]
          have hl2 : List.lookup j (gEnsure (gPushDep aid j g) j) = some {} := by
            rw [lookup_gEnsure_fresh _ j j hl1]
            simp [hl1]
          rw [addDependsOnEdge, lookup_gPushReq_self, hl2]
          rfl
      · refine Or.inr (Or.inr (Or.inr ⟨hj, hjb, ?_⟩))
        rw [addDependsOnEdge, lookup_gPushReq_ne _ b aid j hjb]
        cases hl : List.lookup j g with
        | some w =>
          rw [lookup_gEnsure_of_isSome _ b j
            (by rw [lookup_gPushDep_ne g aid b j hj, hl]; rfl)]
          rw [lookup_gPushDep_ne g aid b j hj]
          exact hl
        | none =>
          have hl1 : List.lookup j (gPushDep aid b g) = none := by
            rw [lookup_gPushDep_ne g aid b j hj, hl]
          rw [lookup_gEnsure_fresh _ b j hl1]
          simp [hjb]

/-- Well-formedness: every stored node has duplicate-free adjacency
lists. -/
def GraphWF (g : Graph) : Prop :=
  ∀ j n, List.lookup j g = some n → n.dependsOn.Nodup ∧ n.requiredBy.Nodup

theorem graphWF_gEnsure (g : Graph) (id : String) (h : GraphWF g) :
    GraphWF (gEnsure g id) := by
  intro j n hn
  rw [gEnsure] at hn
  by_cases hid : (List.lookup id g).isSome
  · rw [if_pos hid] at hn
    exact h j n hn
  · rw [if_neg hid, lookup_concat] at hn
    cases hl : List.lookup j g with
    | some m =>
      rw [hl] at hn
      have hn2 : some m = some n := hn
      obtain rfl := Option.some.inj hn2
      exact h j m hl
    | none =>
      rw [hl] at hn
      have hn2 : (if j = id then some ({} : GNode) else none) = some n := hn
      by_cases hj : j = id
      · rw [if_pos hj] at hn2
        obtain rfl := Option.some.inj hn2
        exact ⟨List.nodup_nil, List.nodup_nil⟩
      · rw [if_neg hj] at hn2
        cases hn2

theorem graphWF_gPushDep (g : Graph) (id dep : String) (h : GraphWF g)
    (hguard : ∀ n, List.lookup id g = some n → dep ∉ n.dependsOn) :
    GraphWF (gPushDep id dep g) := by
  intro j n hn
  by_cases hj : j = id
  · subst hj
    rw [lookup_gPushDep_self] at hn
    cases hl : List.lookup j g with
    | none => rw [hl] at hn; cases hn
    | some m =>
      rw [hl] at hn
      have hn2 : some (⟨m.dependsOn ++ [dep], m.requiredBy⟩ : GNode) = some n := hn
      obtain rfl := Option.some.inj hn2
      exact ⟨nodup_concat _ _ (h j m hl).1 (hguard m hl), (h j m hl).2⟩
  · rw [lookup_gPushDep_ne g id dep j hj] at hn
    exact h j n hn

theorem graphWF_gPushReq (g : Graph) (id req : String) (h : GraphWF g)
    (hguard : ∀ n, List.lookup id g = some n → req ∉ n.requiredBy) :
    GraphWF (gPushReq id req g) := by
  intro j n hn
  by_cases hj : j = id
  · subst hj
    rw [lookup_gPushReq_self] at hn
    cases hl : List.lookup j g with
    | none => rw [hl] at hn; cases hn
    | some m =>
      rw [hl] at hn
      have hn2 : some (⟨m.dependsOn, m.requiredBy ++ [req]⟩ : GNode) = some n := hn
      obtain rfl := Option.some.inj hn2
      exact ⟨(h j m hl).1, nodup_concat _ _ (h j m hl).2 (hguard m hl)⟩
  · rw [lookup_gPushReq_ne g id req j hj] at hn
    exact h j n hn

/-- The `indexOf === -1` guards of the third loop make each `impacts`
insertion skip an edge that is already present, so well-formedness is
preserved with no hypotheses on the inputs. -/
theorem graphWF_addImpactsEdge (aid y : String) (g : Graph) (h : GraphWF g) :
    GraphWF (addImpactsEdge aid y g) := by
  have h₁ : GraphWF (gEnsure g aid) := graphWF_gEnsure g aid h
  have h₂ : GraphWF (if y ∈ (gNode (gEnsure g aid) aid).requiredBy
      then gEnsure g aid else gPushReq aid y (gEnsure g aid)) := by
    by_cases hy : y ∈ (gNode (gEnsure g aid) aid).requiredBy
    · rw [if_pos hy]
      exact h₁
    · rw [if_neg hy]
      refine graphWF_gPushReq _ aid y h₁ ?_
      intro n hn
      rw [gNode_eq_of_lookup hn] at hy
      exact hy
  have h₃ : GraphWF (gEnsure (if y ∈ (gNode (gEnsure g aid) aid).requiredBy
      then gEnsure g aid else gPushReq aid y (gEnsure g aid)) y) := graphWF_gEnsure _ y h₂
  show GraphWF (if aid ∈ (gNode (gEnsure (if y ∈ (gNode (gEnsure g aid) aid).requiredBy
      then gEnsure g aid else gPushReq aid y (gEnsure g aid)) y) y).dependsOn
    then gEnsure (if y ∈ (gNode (gEnsure g aid) aid).requiredBy
      then gEnsure g aid else gPushReq aid y (gEnsure g aid)) y
    else gPushDep y aid (gEnsure (if y ∈ (gNode (gEnsure g aid) aid).requiredBy
      then gEnsure g aid else gPushReq aid y (gEnsure g aid)) y))
  by_cases ha : aid ∈ (gNode (gEnsure (if y ∈ (gNode (gEnsure g aid) aid).requiredBy
      then gEnsure g aid else gPushReq aid y (gEnsure g aid)) y) y).dependsOn
  · rw [if_pos ha]
    exact h₃
  · rw [if_neg ha]
    refine graphWF_gPushDep _ y aid h₃ ?_
    intro n hn
    rw [gNode_eq_of_lookup hn] at ha
    exact ha

theorem foldl_preserve {α : Type} (f : Graph → α → Graph) (P : Graph → Prop)
    (hstep : ∀ g a, P g → P (f g a)) :
    ∀ (l : List α) (g : Graph), P g → P (l.foldl f g) := by
  intro l
  induction l with
  | nil => intro g hg; exact hg
  | cons x xs ih => intro g hg; exact ih (f g x) (hstep g x hg)

/-- After the first loop every node stored in the graph is the freshly
allocated empty node. -/
theorem gEnsure_fold_empty (l : List Endpoint) :
    ∀ (g : Graph), (∀ j n, List.lookup j g = some n → n = ({} : GNode)) →
      ∀ j n, List.lookup j (l.foldl (fun g ep => gEnsure g ep.id) g) = some n →
        n = ({} : GNode) := by
  induction l with
  | nil => intro g hg; exact hg
  | cons x xs ih =>
    intro g hg
    refine ih (gEnsure g x.id) ?_
    intro j n hn
    rw [gEnsure] at hn
    by_cases hid : (List.lookup x.id g).isSome
    · rw [if_pos hid] at hn
      exact hg j n hn
    · rw [if_neg hid, lookup_concat] at hn
      cases hl : List.lookup j g with
      | some m =>
        rw [hl] at hn
        have hn2 : some m = some n := hn
        obtain rfl := Option.some.inj hn2
        exact hg j m hl
      | none =>
        rw [hl] at hn
        have hn2 : (if j = x.id then some ({} : GNode) else none) = some n := hn
        by_cases hj : j = x.id
        · rw [if_pos hj] at hn2
          exact (Option.some.inj hn2).symm
        · rw [if_neg hj] at hn2
          cases hn2

/-- One `dependsOn` insertion, tracked for well-formedness: with the
processed prefix `p` of the current endpoint `aid`'s dependsOn list and
the processed endpoint ids `dids`, pushing the fresh target `b` keeps
all adjacency lists duplicate-free, extends `aid`'s dependsOn list by
`b`, keeps every `requiredBy` entry accounted for, and leaves every
other node's dependsOn list unchanged (or empty when freshly created). -/
theorem addDep_step (dids : List String) (aid b : String) (p : List String)
    (g : Graph) (nA : GNode)
    (haid : aid ∉ dids) (hbp : b ∉ p)
    (hA : List.lookup aid g = some nA) (hAdep : nA.dependsOn = p)
    (hwf : GraphWF g)
    (hreq : ∀ j n, List.lookup j g = some n → ∀ x ∈ n.requiredBy,
      x ∈ dids ∨ (x = aid ∧ j ∈ p)) :
    (∃ nA2, List.lookup aid (addDependsOnEdge aid b g) = some nA2
        ∧ nA2.dependsOn = p ++ [b])
    ∧ GraphWF (addDependsOnEdge aid b g)
    ∧ (∀ j n, List.lookup j (addDependsOnEdge aid b g) = some n →
        ∀ x ∈ n.requiredBy, x ∈ dids ∨ (x = aid ∧ j ∈ p ++ [b]))
    ∧ (∀ j, j ≠ aid → ∀ n2, List.lookup j (addDependsOnEdge aid b g) = some n2 →
        (∃ n, List.lookup j g = some n ∧ n2.dependsOn = n.dependsOn)
        ∨ (List.lookup j g = none ∧ n2.dependsOn = [])) := by
  have hpnd : p.Nodup := hAdep ▸ (hwf aid nA hA).1
  have hrnd : nA.requiredBy.Nodup := (hwf aid nA hA).2
  refine ⟨?_, ?_, ?_, ?_⟩
  · rcases addDependsOnEdge_lookup aid b g nA hA aid with
      ⟨_, hab, heq⟩ | ⟨_, hab, heq⟩ | ⟨hja, hab, _⟩ | ⟨hja, _, _⟩
    · refine ⟨⟨nA.dependsOn ++ [b], nA.requiredBy ++ [aid]⟩, heq, ?_⟩
      show nA.dependsOn ++ [b] = p ++ [b]
      rw [hAdep]
    · refine ⟨⟨nA.dependsOn ++ [b], nA.requiredBy⟩, heq, ?_⟩
      show nA.dependsOn ++ [b] = p ++ [b]
      rw [hAdep]
    · exact absurd hja hab
    · exact absurd rfl hja
  · intro j n hn
    rcases addDependsOnEdge_lookup aid b g nA hA j with
      ⟨hja, hab, heq⟩ | ⟨hja, hab, heq⟩ | ⟨hjb, hab, hsub⟩ | ⟨hja, hjb, heq⟩
    · rw [heq] at hn
      obtain rfl := Option.some.inj hn
      constructor
      · show (nA.dependsOn ++ [b]).Nodup
        rw [hAdep]
        exact nodup_concat p b hpnd hbp
      · show (nA.requiredBy ++ [aid]).Nodup
        refine nodup_concat _ _ hrnd ?_
        intro hmem
        rcases hreq aid nA hA aid hmem with hd | ⟨_, hp⟩
        · exact haid hd
        · exact hbp (hab ▸ hp)
    · rw [heq] at hn
      obtain rfl := Option.some.inj hn
      constructor
      · show (nA.dependsOn ++ [b]).Nodup
        rw [hAdep]
        exact nodup_concat p b hpnd hbp
      · show nA.requiredBy.Nodup
        exact hrnd
    · rcases hsub with ⟨m, hm, heq⟩ | ⟨hmnone, heq⟩
      · rw [heq] at hn
        obtain rfl := Option.some.inj hn
        constructor
        · show m.dependsOn.Nodup
          exact (hwf b m hm).1
        · show (m.requiredBy ++ [aid]).Nodup
          refine nodup_concat _ _ (hwf b m hm).2 ?_
          intro hmem
          rcases hreq b m hm aid hmem with hd | ⟨_, hp⟩
          · exact haid hd
          · exact hbp hp
      · rw [heq] at hn
        obtain rfl := Option.some.inj hn
        exact ⟨List.nodup_nil, List.nodup_singleton aid⟩
    · rw [heq] at hn
      exact hwf j n hn
  · intro j n hn x hx
    rcases addDependsOnEdge_lookup aid b g nA hA j with
      ⟨hja, hab, heq⟩ | ⟨hja, hab, heq⟩ | ⟨hjb, hab, hsub⟩ | ⟨hja, hjb, heq⟩
    · rw [heq] at hn
      obtain rfl := Option.some.inj hn
      have hx2 : x ∈ nA.requiredBy ++ [aid] := hx
      rcases List.mem_append.mp hx2 with hold | hnew
      · rcases hreq aid nA hA x hold with hd | ⟨hxa, hp⟩
        · exact Or.inl hd
        · refine Or.inr ⟨hxa, ?_⟩
          rw [hja]
          exact List.mem_append_left _ hp
      · refine Or.inr ⟨List.mem_singleton.mp hnew, ?_⟩
        rw [hja, hab]
        exact List.mem_append_right _ (List.mem_singleton_self b)
    · rw [heq] at hn
      obtain rfl := Option.some.inj hn
      have hx2 : x ∈ nA.requiredBy := hx
      rcases hreq aid nA hA x hx2 with hd | ⟨hxa, hp⟩
      · exact Or.inl hd
      · refine Or.inr ⟨hxa, ?_⟩
        rw [hja]
        exact List.mem_append_left _ hp
    · rcases hsub with ⟨m, hm, heq⟩ | ⟨hmnone, heq⟩
      · rw [heq] at hn
        obtain rfl := Option.some.inj hn
        have hx2 : x ∈ m.requiredBy ++ [aid] := hx
        rcases List.mem_append.mp hx2 with hold | hnew
        · rcases hreq b m hm x hold with hd | ⟨hxa, hp⟩
          · exact Or.inl hd
          · refine Or.inr ⟨hxa, ?_⟩
            rw [hjb]
            exact List.mem_append_left _ hp
        · refine Or.inr ⟨List.mem_singleton.mp hnew, ?_⟩
          rw [hjb]
          exact List.mem_append_right _ (List.mem_singleton_self b)
      · rw [heq] at hn
        obtain rfl := Option.some.inj hn
        have hx2 : x ∈ [aid] := hx
        refine Or.inr ⟨List.mem_singleton.mp hx2, ?_⟩
        rw [hjb]
        exact List.mem_append_right _ (List.mem_singleton_self b)
    · rw [heq] at hn
      rcases hreq j n hn x hx with hd | ⟨hxa, hp⟩
      · exact Or.inl hd
      · exact Or.inr ⟨hxa, List.mem_append_left _ hp⟩
  · intro j hj n2 hn2
    rcases addDependsOnEdge_lookup aid b g nA hA j with
      ⟨hja, _, _⟩ | ⟨hja, _, _⟩ | ⟨hjb, hab, hsub⟩ | ⟨_, _, heq⟩
    · exact absurd hja hj
    · exact absurd hja hj
    · rcases hsub with ⟨m, hm, heq⟩ | ⟨hmnone, heq⟩
      · rw [heq] at hn2
        obtain rfl := Option.some.inj hn2
        refine Or.inl ⟨m, ?_, rfl⟩
        rw [hjb]
        exact hm
      · rw [heq] at hn2
        obtain rfl := Option.some.inj hn2
        refine Or.inr ⟨?_, rfl⟩
        rw [hjb]
        exact hmnone
    · rw [heq] at hn2
      exact Or.inl ⟨n2, hn2, rfl⟩

/-- Folding one endpoint's whole dependsOn list: the kept invariants of
`addDep_step`, iterated. -/
theorem addDep_fold (dids : List String) (aid : String) (haid : aid ∉ dids) :
    ∀ (q p : List String) (g : Graph) (nA : GNode),
      (p ++ q).Nodup →
      List.lookup aid g = some nA → nA.dependsOn = p →
      GraphWF g →
      (∀ j n, List.lookup j g = some n → ∀ x ∈ n.requiredBy,
        x ∈ dids ∨ (x = aid ∧ j ∈ p)) →
      (∃ nA2, List.lookup aid
          (q.foldl (fun g depId => addDependsOnEdge aid depId g) g) = some nA2
          ∧ nA2.dependsOn = p ++ q)
      ∧ GraphWF (q.foldl (fun g depId => addDependsOnEdge aid depId g) g)
      ∧ (∀ j n, List.lookup j (q.foldl (fun g depId => addDependsOnEdge aid depId g) g)
            = some n →
          ∀ x ∈ n.requiredBy, x ∈ dids ∨ (x = aid ∧ j ∈ p ++ q))
      ∧ (∀ j, j ≠ aid → ∀ n2, List.lookup j
            (q.foldl (fun g depId => addDependsOnEdge aid depId g) g) = some n2 →
          (∃ n, List.lookup j g = some n ∧ n2.dependsOn = n.dependsOn)
          ∨ (List.lookup j g = none ∧ n2.dependsOn = [])) := by
  intro q
  induction q with
  | nil =>
    intro p g nA hnd hA hAdep hwf hreq
    refine ⟨⟨nA, hA, by rw [hAdep, List.append_nil]⟩, hwf, ?_, ?_⟩
    · intro j n hn x hx
      rw [List.append_nil]
      exact hreq j n hn x hx
    · intro j _ n2 hn2
      exact Or.inl ⟨n2, hn2, rfl⟩
  | cons b q ih =>
    intro p g nA hnd hA hAdep hwf hreq
    have hbp : b ∉ p := by
      intro hb
      rcases List.nodup_append.mp hnd with ⟨_, _, hdisj⟩
      exact hdisj hb (List.mem_cons_self b q)
    obtain ⟨⟨nA₁, hA₁, hA₁dep⟩, hwf₁, hreq₁, hpres₁⟩ :=
      addDep_step dids aid b p g nA haid hbp hA hAdep hwf hreq
    have hnd2 : ((p ++ [b]) ++ q).Nodup := by
      rw [← List.append_cons]
      exact hnd
    obtain ⟨h1, h2, h3, h4⟩ :=
      ih (p ++ [b]) (addDependsOnEdge aid b g) nA₁ hnd2 hA₁ hA₁dep hwf₁ hreq₁
    simp only [List.foldl_cons]
    refine ⟨?_, h2, ?_, ?_⟩
    · obtain ⟨nA2, hl, hdep⟩ := h1
      exact ⟨nA2, hl, by rw [hdep, ← List.append_cons]⟩
    · intro j n hn x hx
      rcases h3 j n hn x hx with hd | ⟨hxa, hp⟩
      · exact Or.inl hd
      · refine Or.inr ⟨hxa, ?_⟩
        rw [List.append_cons]
        exact hp
    · intro j hj n2 hn2
      rcases h4 j hj n2 hn2 with ⟨n₁, hmid, hdep⟩ | ⟨hmidnone, hdep⟩
      · rcases hpres₁ j hj n₁ hmid with ⟨n₀, hold, hdep₀⟩ | ⟨holdnone, hdep₀⟩
        · exact Or.inl ⟨n₀, hold, by rw [hdep, hdep₀]⟩
        · exact Or.inr ⟨holdnone, by rw [hdep, hdep₀]⟩
      · have holdnone : List.lookup j g = none := by
          cases hold : List.lookup j g with
          | none => rfl
          | some w =>
            obtain ⟨w2, hw2, _, _⟩ := graphLE_addDependsOnEdge aid b g j w hold
            rw [hmidnone] at hw2
            cases hw2
        exact Or.inr ⟨holdnone, hdep⟩

/-- The second loop keeps the graph well-formed when endpoint ids are
distinct and each endpoint's dependsOn list is duplicate-free: each
`requiredBy` entry is owed to an already processed endpoint, so no push
ever repeats an edge. -/
theorem phase2_wf (rem : List Endpoint) :
    ∀ (dids : List String) (g : Graph),
      (dids ++ rem.map (fun e => e.id)).Nodup →
      (∀ ep ∈ rem, ep.dependsOn.Nodup) →
      (∀ ep ∈ rem, (List.lookup ep.id g).isSome) →
      GraphWF g →
      (∀ j n, List.lookup j g = some n → ∀ x ∈ n.requiredBy, x ∈ dids) →
      (∀ ep ∈ rem, ∀ n, List.lookup ep.id g = some n → n.dependsOn = []) →
      GraphWF (rem.foldl (fun g ep2 =>
        ep2.dependsOn.foldl (fun g depId => addDependsOnEdge ep2.id depId g) g) g) := by
  induction rem with
  | nil =>
    intro dids g _ _ _ hwf _ _
    exact hwf
  | cons A rest ih =>
    intro dids g hnd hdnd hsome hwf hreq hdep0
    simp only [List.foldl_cons]
    have hsomeA := hsome A (List.mem_cons_self A rest)
    obtain ⟨nA, hA⟩ := Option.isSome_iff_exists.mp hsomeA
    have hAdep : nA.dependsOn = [] := hdep0 A (List.mem_cons_self A rest) nA hA
    have haidnot : A.id ∉ dids := by
      rcases List.nodup_append.mp hnd with ⟨_, _, hdisj⟩
      intro hmem
      exact hdisj hmem (by simp)
    obtain ⟨⟨nA2, hAfin, _⟩, hwf2, hreq2, hpres2⟩ :=
      addDep_fold dids A.id haidnot A.dependsOn [] g nA
        (by simpa using hdnd A (List.mem_cons_self A rest))
        hA hAdep hwf
        (fun j n hn x hx => Or.inl (hreq j n hn x hx))
    have hnd2 : ((dids ++ [A.id]) ++ rest.map (fun e => e.id)).Nodup := by
      rw [← List.append_cons]
      simpa using hnd
    have hle : GraphLE g
        (A.dependsOn.foldl (fun g depId => addDependsOnEdge A.id depId g) g) :=
      foldl_graphLE _ (fun g d => graphLE_addDependsOnEdge A.id d g) A.dependsOn g
    have hsome2 : ∀ ep ∈ rest, (List.lookup ep.id
        (A.dependsOn.foldl (fun g depId => addDependsOnEdge A.id depId g) g)).isSome :=
      fun ep hep => graphLE_isSome hle ep.id (hsome ep (List.mem_cons_of_mem A hep))
    have hreq3 : ∀ j n, List.lookup j
        (A.dependsOn.foldl (fun g depId => addDependsOnEdge A.id depId g) g) = some n →
        ∀ x ∈ n.requiredBy, x ∈ dids ++ [A.id] := by
      intro j n hn x hx
      rcases hreq2 j n hn x hx with hd | ⟨hxa, _⟩
      · exact List.mem_append_left _ hd
      · rw [hxa]
        exact List.mem_append_right _ (List.mem_singleton_self _)
    have hdep02 : ∀ ep ∈ rest, ∀ n, List.lookup ep.id
        (A.dependsOn.foldl (fun g depId => addDependsOnEdge A.id depId g) g) = some n →
        n.dependsOn = [] := by
      intro ep hep n hn
      have hmapnd : (List.map (fun e => e.id) (A :: rest)).Nodup :=
        (List.nodup_append.mp hnd).2.1
      rw [List.map_cons] at hmapnd
      have hnotin : A.id ∉ List.map (fun e => e.id) rest := (List.nodup_cons.mp hmapnd).1
      have hne : ep.id ≠ A.id := by
        intro hcon
        exact hnotin (hcon ▸ List.mem_map.mpr ⟨ep, hep, rfl⟩)
      rcases hpres2 ep.id hne n hn with ⟨n₀, hold, hdepeq⟩ | ⟨_, hdepeq⟩
      · rw [hdepeq]
        exact hdep0 ep (List.mem_cons_of_mem A hep) n₀ hold
      · exact hdepeq
    exact ih (dids ++ [A.id]) _ hnd2 (fun ep hep => hdnd ep (List.mem_cons_of_mem A hep))
      hsome2 hwf2 hreq3 hdep02

/-- Claim C4: for every registry, the built dependency graph stores
every `dependsOn` declaration A→B in both directions (B in
graph[A].dependsOn and A in graph[B].requiredBy) and every `impacts`
declaration X→Y transposed (X in graph[Y].dependsOn and Y in
graph[X].requiredBy); every endpoint id gets a node, and the stored
edges show that ids referenced only as dependsOn/impacts targets get
nodes too; and when endpoint ids are distinct and each dependsOn list
is duplicate-free, no adjacency list of the built graph holds a
duplicate — in particular an `impacts` edge that repeats a `dependsOn`
declaration is skipped by the indexOf guards. -/
theorem getDependencyGraph_spec (endpoints : List Endpoint) :
    (∀ A ∈ endpoints, ∀ b ∈ A.dependsOn,
        (∃ n, List.lookup A.id (getDependencyGraph endpoints) = some n
            ∧ b ∈ n.dependsOn)
      ∧ (∃ n, List.lookup b (getDependencyGraph endpoints) = some n
            ∧ A.id ∈ n.requiredBy))
    ∧ (∀ X ∈ endpoints, ∀ y ∈ X.impacts,
        (∃ n, List.lookup y (getDependencyGraph endpoints) = some n
            ∧ X.id ∈ n.dependsOn)
      ∧ (∃ n, List.lookup X.id (getDependencyGraph endpoints) = some n
            ∧ y ∈ n.requiredBy))
    ∧ (∀ ep ∈ endpoints, (List.lookup ep.id (getDependencyGraph endpoints)).isSome)
    ∧ ((endpoints.map (fun e => e.id)).Nodup →
        (∀ ep ∈ endpoints, ep.dependsOn.Nodup) →
        ∀ j n, List.lookup j (getDependencyGraph endpoints) = some n →
          n.dependsOn.Nodup ∧ n.requiredBy.Nodup) := by
  have hg : getDependencyGraph endpoints
      = endpoints.foldl (fun g ep3 =>
          ep3.impacts.foldl (fun g impId => addImpactsEdge ep3.id impId g) g)
        (endpoints.foldl (fun g ep2 =>
          ep2.dependsOn.foldl (fun g depId => addDependsOnEdge ep2.id depId g) g)
          (endpoints.foldl (fun g ep => gEnsure g ep.id) [])) := rfl
  rw [hg]
  have hle23 : GraphLE (endpoints.foldl (fun g ep2 =>
        ep2.dependsOn.foldl (fun g depId => addDependsOnEdge ep2.id depId g) g)
        (endpoints.foldl (fun g ep => gEnsure g ep.id) []))
      (endpoints.foldl (fun g ep3 =>
        ep3.impacts.foldl (fun g impId => addImpactsEdge ep3.id impId g) g)
        (endpoints.foldl (fun g ep2 =>
          ep2.dependsOn.foldl (fun g depId => addDependsOnEdge ep2.id depId g) g)
          (endpoints.foldl (fun g ep => gEnsure g ep.id) []))) :=
    @foldl_graphLE Endpoint
      (fun g ep3 => ep3.impacts.foldl (fun g impId => addImpactsEdge ep3.id impId g) g)
      (fun g a => @foldl_graphLE String
        (fun g impId => addImpactsEdge a.id impId g)
        (fun g d => graphLE_addImpactsEdge a.id d g) a.impacts g)
      endpoints
      (endpoints.foldl (fun g ep2 =>
        ep2.dependsOn.foldl (fun g depId => addDependsOnEdge ep2.id depId g) g)
        (endpoints.foldl (fun g ep => gEnsure g ep.id) []))
  have hle12 : GraphLE (endpoints.foldl (fun g ep => gEnsure g ep.id) [])
      (endpoints.foldl (fun g ep2 =>
        ep2.dependsOn.foldl (fun g depId => addDependsOnEdge ep2.id depId g) g)
        (endpoints.foldl (fun g ep => gEnsure g ep.id) [])) :=
    @foldl_graphLE Endpoint
      (fun g ep2 => ep2.dependsOn.foldl (fun g depId => addDependsOnEdge ep2.id depId g) g)
      (fun g a => @foldl_graphLE String
        (fun g depId => addDependsOnEdge a.id depId g)
        (fun g d => graphLE_addDependsOnEdge a.id d g) a.dependsOn g)
      endpoints
      (endpoints.foldl (fun g ep => gEnsure g ep.id) [])
  refine ⟨?_, ?_, ?_, ?_⟩
  · intro A hA b hb
    exact depEdge_mono A.id b _ _ hle23
      (phase2_edges endpoints _ (phase1_present endpoints) A hA b hb)
  · intro X hX y hy
    exact phase3_edges endpoints _ X hX y hy
  · intro ep hep
    exact graphLE_isSome hle23 ep.id
      (graphLE_isSome hle12 ep.id (phase1_present endpoints ep hep))
  · intro hids hdnd
    have hempty : ∀ j n, List.lookup j
        (endpoints.foldl (fun g ep => gEnsure g ep.id) ([] : Graph)) = some n →
        n = ({} : GNode) :=
      gEnsure_fold_empty endpoints [] (fun j n hn => Option.noConfusion hn)
    have hwf1 : GraphWF (endpoints.foldl (fun g ep => gEnsure g ep.id) ([] : Graph)) := by
      intro j n hn
      rw [hempty j n hn]
      exact ⟨List.nodup_nil, List.nodup_nil⟩
    have hreq1 : ∀ j n, List.lookup j
        (endpoints.foldl (fun g ep => gEnsure g ep.id) ([] : Graph)) = some n →
        ∀ x ∈ n.requiredBy, x ∈ ([] : List String) := by
      intro j n hn x hx
      rw [hempty j n hn] at hx
      exact absurd hx (List.not_mem_nil x)
    have hdep01 : ∀ ep ∈ endpoints, ∀ n, List.lookup ep.id
        (endpoints.foldl (fun g ep => gEnsure g ep.id) ([] : Graph)) = some n →
        n.dependsOn = [] := by
      intro ep hep n hn
      rw [hempty ep.id n hn]
    have hwf2 : GraphWF (endpoints.foldl (fun g ep2 =>
        ep2.dependsOn.foldl (fun g depId => addDependsOnEdge ep2.id depId g) g)
        (endpoints.foldl (fun g ep => gEnsure g ep.id) [])) :=
      phase2_wf endpoints [] _ (by simpa using hids) hdnd
        (phase1_present endpoints) hwf1 hreq1 hdep01
    have hwf3 : GraphWF (endpoints.foldl (fun g ep3 =>
        ep3.impacts.foldl (fun g impId => addImpactsEdge ep3.id impId g) g)
        (endpoints.foldl (fun g ep2 =>
          ep2.dependsOn.foldl (fun g depId => addDependsOnEdge ep2.id depId g) g)
          (endpoints.foldl (fun g ep => gEnsure g ep.id) []))) :=
      foldl_preserve _ GraphWF
        (fun g a hwfg => foldl_preserve _ GraphWF
          (fun g y hwfh => graphWF_addImpactsEdge a.id y g hwfh) a.impacts g hwfg)
        endpoints _ hwf2
    exact fun j n hn => hwf3 j n hn

/-- Registry for the C4 witness: A dependsOn B, B impacts A (the same
edge declared both ways), C dependsOn the otherwise-unlisted D. -/
def exGraphRegistry : List Endpoint :=
  [ { id := "A", dependsOn := ["B"] },
    { id := "B", impacts := ["A"] },
    { id := "C", dependsOn := ["D"] } ]

/-- Witness for C4: the hypotheses of the duplicate-freeness part hold
on the example registry, every stored adjacency list is duplicate-free,
and the graph evaluates to exactly one copy of each edge with a node
allocated for the target-only id D. -/
theorem getDependencyGraph_spec_witness :
    (exGraphRegistry.map (fun e => e.id)).Nodup
    ∧ (∀ ep ∈ exGraphRegistry, ep.dependsOn.Nodup)
    ∧ (∀ j n, List.lookup j (getDependencyGraph exGraphRegistry) = some n →
        n.dependsOn.Nodup ∧ n.requiredBy.Nodup)
    ∧ getDependencyGraph exGraphRegistry
        = [("A", ⟨["B"], []⟩), ("B", ⟨[], ["A"]⟩),
           ("C", ⟨["D"], []⟩), ("D", ⟨[], ["C"]⟩)] :=
  ⟨by decide, by decide,
    (getDependencyGraph_spec exGraphRegistry).2.2.2 (by decide) (by decide),
    by decide⟩

end Integra
